import Mathlib

/-!
# Verification of the snapshot change-detection core of `scripts/check_notion.py`

This file gives a shallow embedding of the pure computational core of the
repository's `scripts/check_notion.py`: line splitting, sequence alignment
(the script delegates to Python's `difflib.SequenceMatcher` with its default
`autojunk=True` heuristic, which is modelled faithfully here), unified-diff
rendering (`difflib.unified_diff` with its default of 3 context lines),
diff statistics, context resolution, block clipping, and the change-report
builder.  Machine-independent data (lines, index ranges) are modelled with
`List` and `Nat`; Python strings are modelled by Lean `String` with explicit
character-level helpers mirroring the Python string methods used.
-/

namespace CheckNotion

/-! ## Python string helpers -/

/-- Whitespace characters recognised by Python's `str.strip()` (the ASCII
whitespace set plus the C1 separators and NBSP; exotic Unicode space
characters do not occur in the inputs handled by the script). -/
def pyIsSpace (c : Char) : Bool :=
  c = ' ' || c = '\t' || c = '\n' || c = '\x0b' || c = '\x0c' || c = '\r' ||
  c = '\x1c' || c = '\x1d' || c = '\x1e' || c = '\x1f' || c = '\x85' || c = ' '

/-- Python `str.strip()`: remove leading and trailing whitespace. -/
def pyStrip (s : String) : String :=
  ⟨((s.data.dropWhile pyIsSpace).reverse.dropWhile pyIsSpace).reverse⟩

/-- ASCII lowering of one character, as done by Python `str.lower()` on
ASCII input (the script only compares lowered strings against the ASCII
literal "notion"). -/
def asciiLowerChar (c : Char) : Char :=
  if 'A' ≤ c ∧ c ≤ 'Z' then Char.ofNat (c.toNat + 32) else c

/-- Python `str.lower()` restricted to ASCII case mapping. -/
def asciiLower (s : String) : String :=
  ⟨s.data.map asciiLowerChar⟩

/-- Python `str.startswith(p)`. -/
def pyStartsWith (s p : String) : Bool :=
  List.isPrefixOf p.data s.data

/-- Python `"\n".join(xs)`. -/
def joinNl (xs : List String) : String :=
  String.intercalate "\n" xs

/-- Python `s.replace("\n", "\n  ")`, used to indent continuation lines of
a report block. -/
def indentNl (s : String) : String :=
  ⟨s.data.flatMap (fun c => if c = '\n' then ['\n', ' ', ' '] else [c])⟩

/-- Python `s.replace("\n", " ")`, used to collapse a report item to one line. -/
def collapseNl (s : String) : String :=
  ⟨s.data.map (fun c => if c = '\n' then ' ' else c)⟩

/-- Python `s[:n]` (slicing by code points). -/
def takeChars (s : String) (n : Nat) : String :=
  ⟨s.data.take n⟩

/-! ## Python `str.splitlines()`

`build_change_report` and `make_unified_diff` both split their inputs with
`str.splitlines()`, which splits on `\n`, `\r`, `\r\n` and the remaining
Unicode line boundaries (`\v`, `\f`, FS, GS, RS, NEL, LS, PS), and does not
produce a trailing empty line for a terminated final line. -/

/-- Line-break characters other than `\r` recognised by `str.splitlines()`. -/
def lineBreakNoCR (c : Char) : Bool :=
  c = '\n' || c = '\x0b' || c = '\x0c' || c = '\x1c' || c = '\x1d' ||
  c = '\x1e' || c = '\x85' || c = ' ' || c = ' '

/-- Worker for `splitlines`; `acc` holds the current line reversed. -/
def splitlinesAux : List Char → List Char → List String
  | [], acc => if acc.isEmpty then [] else [⟨acc.reverse⟩]
  | '\r' :: '\n' :: rest, acc => ⟨acc.reverse⟩ :: splitlinesAux rest []
  | '\r' :: rest, acc => ⟨acc.reverse⟩ :: splitlinesAux rest []
  | c :: rest, acc =>
    if lineBreakNoCR c then ⟨acc.reverse⟩ :: splitlinesAux rest []
    else splitlinesAux rest (c :: acc)

/-- Python `str.splitlines()`. -/
def splitlines (s : String) : List String :=
  splitlinesAux s.data []

/-- Splitting on the newline character `\n` only (no other boundary
characters), with a final `\n`-terminated line not followed by an empty
line; this is the splitter described by the specification. -/
def splitNlOnly : List Char → List Char → List String
  | [], acc => if acc.isEmpty then [] else [⟨acc.reverse⟩]
  | c :: rest, acc =>
    if c = '\n' then ⟨acc.reverse⟩ :: splitNlOnly rest []
    else splitNlOnly rest (c :: acc)

/-- The `\n`-only splitter on a whole string. -/
def splitOnNewline (s : String) : List String :=
  splitNlOnly s.data []

/-! ## Opcodes and matching blocks (difflib data model) -/

/-- Opcode tags of `difflib.SequenceMatcher.get_opcodes`. -/
inductive Tag where
  | equal
  | insert
  | delete
  | replace
deriving DecidableEq, Repr

/-- One opcode `(tag, i1, i2, j1, j2)`: the old-range `[i1, i2)` of the old
sequence corresponds to the new-range `[j1, j2)` of the new sequence. -/
structure Opcode where
  tag : Tag
  i1 : Nat
  i2 : Nat
  j1 : Nat
  j2 : Nat
deriving DecidableEq, Repr

/-- A matching block `(a, b, size)`: `old[ai:ai+size] == new[bj:bj+size]`. -/
structure MatchBlock where
  ai : Nat
  bj : Nat
  size : Nat
deriving DecidableEq, Repr

/-- Python slice `l[i1:i2]`. -/
def slice (l : List α) (i1 i2 : Nat) : List α :=
  (l.take i2).drop i1

variable {α : Type} [DecidableEq α]


/-! ## `difflib.SequenceMatcher`

The script builds opcodes with `difflib.SequenceMatcher(None, old_lines,
new_lines).get_opcodes()`.  With `isjunk=None` the junk set is empty, but the
default `autojunk=True` heuristic is active: when the new sequence has at
least 200 elements, every element occurring more than `len(b) // 100 + 1`
times is "popular" and is removed from the index `b2j`, so it cannot take
part in the core phase of `find_longest_match` (it can still be picked up by
the plain extension loops). -/

/-- The `autojunk` popularity test of `SequenceMatcher.__chain_b`. -/
def isPopular (b : List α) (y : α) : Bool :=
  200 ≤ b.length && b.length / 100 + 1 < b.count y

/-- The elements at positions `i` of `a` and `j` of `b` both exist and are
equal. -/
def eqAt (a b : List α) (i j : Nat) : Bool :=
  match a.get? i, b.get? j with
  | some x, some y => x = y
  | _, _ => false

/-- The element at position `j` of `b` exists and satisfies `good`. -/
def goodAt (good : α → Bool) (b : List α) (j : Nat) : Bool :=
  match b.get? j with
  | some y => good y
  | none => false

/-- Length of the longest run of positions `t` starting at `(i, j)` with
`a[i+t] = b[j+t]`, staying below `ahi`/`bhi`, whose `b`-side elements all
satisfy `good`.  With `good = (!isPopular b ·)` this is the run length
accumulated by the `j2len` dynamic programming of `find_longest_match`
(purged positions break a run); with `good = fun _ => true` it is the plain
longest common run starting at `(i, j)`. -/
def coreRunF (good : α → Bool) (a b : List α) (bhi : Nat) :
    Nat → Nat → Nat → Nat
  | 0, _, _ => 0
  | fuel + 1, i, j =>
    if j < bhi ∧ eqAt a b i j ∧ goodAt good b j then
      coreRunF good a b bhi fuel (i + 1) (j + 1) + 1
    else 0

def coreRun (good : α → Bool) (a b : List α) (ahi bhi i j : Nat) : Nat :=
  coreRunF good a b bhi (ahi - i) i j

/-- All candidate start pairs `(i, j)` of the search region, in the order
`find_longest_match` examines them (increasing `i`, then increasing `j`). -/
def candIdx (alo ahi blo bhi : Nat) : List (Nat × Nat) :=
  (List.range' alo (ahi - alo)).flatMap fun i =>
    (List.range' blo (bhi - blo)).map fun j => (i, j)

/-- The loop of the core scan: a candidate start replaces the best block
found so far exactly when its run is strictly longer. -/
def scanGo (good : α → Bool) (a b : List α) (ahi bhi : Nat) :
    List (Nat × Nat) → MatchBlock → MatchBlock
  | [], best => best
  | p :: rest, best =>
    if best.size < coreRun good a b ahi bhi p.1 p.2 then
      scanGo good a b ahi bhi rest ⟨p.1, p.2, coreRun good a b ahi bhi p.1 p.2⟩
    else scanGo good a b ahi bhi rest best

/-- The core phase of `find_longest_match`: the longest `good` run in the
region, with ties broken by the earliest start in `a` and then the earliest
start in `b` (the first strict improvement wins), starting from the default
answer `(alo, blo, 0)`. -/
def scanBest (good : α → Bool) (a b : List α) (alo ahi blo bhi : Nat) : MatchBlock :=
  scanGo good a b ahi bhi (candIdx alo ahi blo bhi) ⟨alo, blo, 0⟩

/-- The first extension loop of `find_longest_match` (with an empty junk set
the guard is plain element equality): grow the block leftwards while the
preceding elements match.  The structural recursion runs on the exact loop
bound `m.ai`. -/
def extendLeftF (a b : List α) (alo blo : Nat) : Nat → MatchBlock → MatchBlock
  | 0, m => m
  | fuel + 1, m =>
    if alo < m.ai ∧ blo < m.bj ∧ eqAt a b (m.ai - 1) (m.bj - 1) then
      extendLeftF a b alo blo fuel ⟨m.ai - 1, m.bj - 1, m.size + 1⟩
    else m

def extendLeft (a b : List α) (alo blo : Nat) (m : MatchBlock) : MatchBlock :=
  extendLeftF a b alo blo m.ai m

/-- The second extension loop of `find_longest_match`: grow the block
rightwards while the following elements match.  The structural recursion
runs on the exact loop bound `ahi - m.size`. -/
def extendRightF (a b : List α) (ahi bhi : Nat) : Nat → MatchBlock → MatchBlock
  | 0, m => m
  | fuel + 1, m =>
    if m.ai + m.size < ahi ∧ m.bj + m.size < bhi ∧
        eqAt a b (m.ai + m.size) (m.bj + m.size) then
      extendRightF a b ahi bhi fuel ⟨m.ai, m.bj, m.size + 1⟩
    else m

def extendRight (a b : List α) (ahi bhi : Nat) (m : MatchBlock) : MatchBlock :=
  extendRightF a b ahi bhi (ahi - m.size) m

/-- The longest-match search, parametrised by the `good` filter of the core
phase and by whether the extension loops run.
`findWith (!isPopular b ·) true` is `SequenceMatcher.find_longest_match`
(empty junk set, autojunk purging, both extension loops);
`findWith (fun _ => true) false` is the plain longest-common-run search. -/
def findWith (good : α → Bool) (ext : Bool) (a b : List α) (alo ahi blo bhi : Nat) :
    MatchBlock :=
  let m := scanBest good a b alo ahi blo bhi
  if ext then extendRight a b ahi bhi (extendLeft a b alo blo m) else m

/-- `SequenceMatcher.find_longest_match` over `a[alo:ahi]` and `b[blo:bhi]`. -/
def find_longest_match (a b : List α) (alo ahi blo bhi : Nat) : MatchBlock :=
  findWith (fun y => !isPopular b y) true a b alo ahi blo bhi

/-- Modelled from the spec: "repeatedly find the longest common contiguous
run of lines between the remaining unmatched regions of `old` and `new`
(ties broken by earliest position in `old`, then earliest in `new`)" — the
reference longest-run search with no junk filtering and no extension phase. -/
def longestCommonRun (a b : List α) (alo ahi blo bhi : Nat) : MatchBlock :=
  findWith (fun _ => true) false a b alo ahi blo bhi

/-! ## Recursive alignment (`get_matching_blocks`)

`get_matching_blocks` repeatedly applies the longest-match search and
recurses on the regions to the left and to the right of the found block;
the resulting blocks are in sorted order, adjacent blocks are coalesced,
and a zero-size sentinel `(len(a), len(b), 0)` is appended. -/

/-- The recursive divide and conquer of `get_matching_blocks` (the queue in
the Python source together with the final `sort()` produces the blocks of
this recursion in this left-to-right order), parametrised by the search
configuration.  The structural recursion runs on a fuel that bounds the
total width of the region. -/
def alignBlocksF (good : α → Bool) (ext : Bool) (a b : List α) :
    Nat → Nat → Nat → Nat → Nat → List MatchBlock
  | 0, _, _, _, _ => []
  | fuel + 1, alo, ahi, blo, bhi =>
    if 0 < (findWith good ext a b alo ahi blo bhi).size then
      alignBlocksF good ext a b fuel alo (findWith good ext a b alo ahi blo bhi).ai
          blo (findWith good ext a b alo ahi blo bhi).bj ++
        findWith good ext a b alo ahi blo bhi ::
          alignBlocksF good ext a b fuel
            ((findWith good ext a b alo ahi blo bhi).ai +
              (findWith good ext a b alo ahi blo bhi).size) ahi
            ((findWith good ext a b alo ahi blo bhi).bj +
              (findWith good ext a b alo ahi blo bhi).size) bhi
    else []

def alignBlocks (good : α → Bool) (ext : Bool) (a b : List α)
    (alo ahi blo bhi : Nat) : List MatchBlock :=
  alignBlocksF good ext a b ((ahi - alo) + (bhi - blo)) alo ahi blo bhi

/-- The coalescing loop of `get_matching_blocks`: `(i1, j1, k1)` is the
pending block (initially the zero block at the origin); adjacent blocks are
merged, and pending blocks are emitted only if their size is nonzero. -/
def coalesceAux (i1 j1 k1 : Nat) : List MatchBlock → List MatchBlock
  | [] => if 0 < k1 then [⟨i1, j1, k1⟩] else []
  | m :: rest =>
    if i1 + k1 = m.ai ∧ j1 + k1 = m.bj then coalesceAux i1 j1 (k1 + m.size) rest
    else (if 0 < k1 then [⟨i1, j1, k1⟩] else []) ++ coalesceAux m.ai m.bj m.size rest

/-- `SequenceMatcher.get_matching_blocks` (coalesced blocks plus the
sentinel), for the search configuration the script uses. -/
def get_matching_blocks (a b : List α) : List MatchBlock :=
  coalesceAux 0 0 0
      (alignBlocks (fun y => !isPopular b y) true a b 0 a.length 0 b.length) ++
    [⟨a.length, b.length, 0⟩]

/-- The opcode-generation walk of `get_opcodes`: starting from `(i, j)`,
each matching block contributes a gap opcode for the region between the
current position and the block (classified as replace/delete/insert by
which sides are nonempty) followed by an equal opcode for the block itself
when its size is nonzero. -/
def opcodesFromBlocks : Nat → Nat → List MatchBlock → List Opcode
  | _, _, [] => []
  | i, j, m :: rest =>
    (if i < m.ai ∧ j < m.bj then [⟨.replace, i, m.ai, j, m.bj⟩]
     else if i < m.ai then [⟨.delete, i, m.ai, j, m.bj⟩]
     else if j < m.bj then [⟨.insert, i, m.ai, j, m.bj⟩]
     else []) ++
    (if 0 < m.size then [⟨.equal, m.ai, m.ai + m.size, m.bj, m.bj + m.size⟩]
     else []) ++
    opcodesFromBlocks (m.ai + m.size) (m.bj + m.size) rest

/-- `SequenceMatcher(None, a, b).get_opcodes()` as called by the script. -/
def get_opcodes (a b : List α) : List Opcode :=
  opcodesFromBlocks 0 0 (get_matching_blocks a b)

def refOpcodesAuxF (a b : List α) : Nat → Nat → Nat → Nat → Nat → List Opcode
  | 0, _, _, _, _ => []
  | fuel + 1, alo, ahi, blo, bhi =>
    if 0 < (longestCommonRun a b alo ahi blo bhi).size then
      refOpcodesAuxF a b fuel alo (longestCommonRun a b alo ahi blo bhi).ai
          blo (longestCommonRun a b alo ahi blo bhi).bj ++
        ⟨.equal, (longestCommonRun a b alo ahi blo bhi).ai,
            (longestCommonRun a b alo ahi blo bhi).ai +
              (longestCommonRun a b alo ahi blo bhi).size,
            (longestCommonRun a b alo ahi blo bhi).bj,
            (longestCommonRun a b alo ahi blo bhi).bj +
              (longestCommonRun a b alo ahi blo bhi).size⟩ ::
          refOpcodesAuxF a b fuel
            ((longestCommonRun a b alo ahi blo bhi).ai +
              (longestCommonRun a b alo ahi blo bhi).size) ahi
            ((longestCommonRun a b alo ahi blo bhi).bj +
              (longestCommonRun a b alo ahi blo bhi).size) bhi
    else if alo < ahi ∧ blo < bhi then [⟨.replace, alo, ahi, blo, bhi⟩]
    else if alo < ahi then [⟨.delete, alo, ahi, blo, bhi⟩]
    else if blo < bhi then [⟨.insert, alo, ahi, blo, bhi⟩]
    else []

def refOpcodesAux (a b : List α) (alo ahi blo bhi : Nat) : List Opcode :=
  refOpcodesAuxF a b ((ahi - alo) + (bhi - blo) + 1) alo ahi blo bhi

/-- Modelled from the spec: the reference aligner on two whole sequences. -/
def refOpcodes (a b : List α) : List Opcode :=
  refOpcodesAux a b 0 a.length 0 b.length

/-! ## Coverage invariant of the opcode list -/

/-- `opcodesChain i j la lb ops`: starting from position `(i, j)`, the
opcodes' old-ranges and new-ranges are consecutive — each opcode starts
exactly where the previous one ended, ranges are forward (`i1 ≤ i2`,
`j1 ≤ j2`), and the final opcode ends exactly at `(la, lb)`.  This is the
coverage invariant: ranges are non-overlapping, monotonically increasing,
and their concatenations exactly cover `[i, la)` and `[j, lb)`. -/
def opcodesChain : Nat → Nat → Nat → Nat → List Opcode → Prop
  | i, j, la, lb, [] => i = la ∧ j = lb
  | i, j, la, lb, op :: rest =>
    op.i1 = i ∧ op.j1 = j ∧ op.i1 ≤ op.i2 ∧ op.j1 ≤ op.j2 ∧
      opcodesChain op.i2 op.j2 la lb rest

/-- `blocksMono i j ahi bhi bs`: the blocks have positive size, are
monotonically increasing starting no earlier than `(i, j)`, and stay within
`(ahi, bhi)`. -/
def blocksMono : Nat → Nat → Nat → Nat → List MatchBlock → Prop
  | _, _, _, _, [] => True
  | i, j, ahi, bhi, m :: rest =>
    i ≤ m.ai ∧ j ≤ m.bj ∧ m.ai + m.size ≤ ahi ∧ m.bj + m.size ≤ bhi ∧
      0 < m.size ∧ blocksMono (m.ai + m.size) (m.bj + m.size) ahi bhi rest

/-! ## Reference blocks are never adjacent, so coalescing is the identity -/

/-- `m2` starts exactly where `m1` ends, on both sides. -/
def blocksAdj (m1 m2 : MatchBlock) : Prop :=
  m1.ai + m1.size = m2.ai ∧ m1.bj + m1.size = m2.bj

/-! ## The scan winner is the lexicographically first maximal candidate -/

/-- Strict lexicographic order on candidate start pairs (earliest in `a`,
then earliest in `b`). -/
def lexLT (p q : Nat × Nat) : Prop :=
  p.1 < q.1 ∨ (p.1 = q.1 ∧ p.2 < q.2)

/-! ## `prev_nonempty_line` (context resolution) -/

/-- The loop body of `prev_nonempty_line`, walking `steps` indices downwards
from `i`: return the first stripped line that is non-empty and is not
(case-insensitively) the boilerplate token "notion". -/
def prevLoop (lines : List String) : Nat → Int → String
  | 0, _ => ""
  | steps + 1, i =>
    let s := pyStrip (lines.getD i.toNat "")
    if s ≠ "" ∧ asciiLower s ≠ "notion" then s
    else prevLoop lines steps (i - 1)

/-- `prev_nonempty_line(lines, idx, lookback=25)`: starting at
`min(idx - 1, len(lines) - 1)` walk backwards over
`range(k, max(-1, k - lookback), -1)`. -/
def prev_nonempty_line (lines : List String) (idx : Int) (lookback : Nat := 25) :
    String :=
  let k : Int := min (idx - 1) ((lines.length : Int) - 1)
  let stop : Int := max (-1) (k - lookback)
  prevLoop lines (k - stop).toNat k

/-! ## `clip_block` and the change-report builder -/

/-- `clip_block(block, max_lines)`: strip every line, drop empty ones, and
clip to at most `max_lines` lines with a trailing truncation marker. -/
def clip_block (block : List String) (max_lines : Nat) : String :=
  let b := (block.map pyStrip).filter (fun x => x ≠ "")
  if b.isEmpty then "(empty)"
  else if b.length ≤ max_lines then joinNl b
  else joinNl (b.take max_lines) ++ "\n...[truncated]"

/-- The context used for one opcode: the new-sequence context at `j1`, or —
because Python's `or` falls through on the empty string — the old-sequence
context at `i1` when the former is empty. -/
def opContext (old_lines new_lines : List String) (op : Opcode) : String :=
  if prev_nonempty_line new_lines op.j1 ≠ "" then prev_nonempty_line new_lines op.j1
  else prev_nonempty_line old_lines op.i1

/-- The report items contributed by a single non-equal opcode of
`build_change_report`: one clean `"old → new"` item for a single-line
replacement whose stripped sides differ, no item when they agree after
stripping, and one block item (`Added`/`Removed`/`Before`+`After`)
otherwise. -/
def opItems (old_lines new_lines : List String) (maxBlockLines : Nat)
    (op : Opcode) : List String :=
  let context := opContext old_lines new_lines op
  let old_block := slice old_lines op.i1 op.i2
  let new_block := slice new_lines op.j1 op.j2
  if op.tag = .replace ∧ old_block.length = 1 ∧ new_block.length = 1 then
    let o := pyStrip (old_block.headD "")
    let n := pyStrip (new_block.headD "")
    if o ≠ n then
      if context ≠ "" then ["• " ++ context ++ ": " ++ o ++ " → " ++ n]
      else ["• " ++ o ++ " → " ++ n]
    else []
  else
    let header := if context ≠ "" then "• Near: " ++ context else "• Change"
    if op.tag = .insert then
      [header ++ "\n  Added:\n  " ++ indentNl (clip_block new_block maxBlockLines)]
    else if op.tag = .delete then
      [header ++ "\n  Removed:\n  " ++ indentNl (clip_block old_block maxBlockLines)]
    else
      [header ++ "\n  Before:\n  " ++ indentNl (clip_block old_block maxBlockLines) ++
        "\n  After:\n  " ++ indentNl (clip_block new_block maxBlockLines)]

/-- The truncation marker appended when the item budget is exhausted. -/
def truncationMarker : String := "• ...(more changes truncated)"

/-- The opcode loop of `build_change_report`.  Equal opcodes are skipped;
the clean single-line-replacement path appends its item (if any) and
`continue`s — bypassing the budget check — while the block path appends its
item and then stops with one marker item as soon as the accumulated item
count has reached `maxItems`. -/
def buildItemsAux (old_lines new_lines : List String) (maxItems maxBlockLines : Nat) :
    List Opcode → List String → List String
  | [], acc => acc
  | op :: rest, acc =>
    if op.tag = .equal then
      buildItemsAux old_lines new_lines maxItems maxBlockLines rest acc
    else if op.tag = .replace ∧ (slice old_lines op.i1 op.i2).length = 1 ∧
        (slice new_lines op.j1 op.j2).length = 1 then
      buildItemsAux old_lines new_lines maxItems maxBlockLines rest
        (acc ++ opItems old_lines new_lines maxBlockLines op)
    else
      if maxItems ≤ (acc ++ opItems old_lines new_lines maxBlockLines op).length then
        (acc ++ opItems old_lines new_lines maxBlockLines op) ++ [truncationMarker]
      else
        buildItemsAux old_lines new_lines maxItems maxBlockLines rest
          (acc ++ opItems old_lines new_lines maxBlockLines op)

/-- The list of report items produced by `build_change_report` from two
texts (the loop is driven by the opcodes of the splitlines of the texts). -/
def buildItems (old_text new_text : String) (maxItems maxBlockLines : Nat) :
    List String :=
  buildItemsAux (splitlines old_text) (splitlines new_text) maxItems maxBlockLines
    (get_opcodes (splitlines old_text) (splitlines new_text)) []

/-- `build_change_report(old_text, new_text) -> (report, brief)`.  The two
numeric budgets are the module configuration `MAX_CHANGE_ITEMS` and
`MAX_BLOCK_LINES` (environment-configurable, defaulting to 25 and 6). -/
def build_change_report (old_text new_text : String)
    (maxItems maxBlockLines : Nat) : String × String :=
  let items := buildItems old_text new_text maxItems maxBlockLines
  if items.isEmpty then ("No visible text changes detected.", "No changes")
  else ("What changed:\n" ++ String.intercalate "\n\n" items,
        takeChars (collapseNl (items.headD "")) 180)

/-! ## `difflib.unified_diff` (as used by `make_unified_diff`) and
`diff_summary` -/

/-- `difflib._format_range_unified`. -/
def formatRangeUnified (start stop : Nat) : String :=
  if stop - start = 1 then Nat.repr (start + 1)
  else if stop - start = 0 then Nat.repr start ++ ",0"
  else Nat.repr (start + 1) ++ "," ++ Nat.repr (stop - start)

/-- The "fixup" of the leading opcode in `get_grouped_opcodes`: a leading
equal run is trimmed to its last `n` lines. -/
def fixupFirst (n : Nat) : List Opcode → List Opcode
  | [] => []
  | c :: rest =>
    (if c.tag = .equal then
       ⟨c.tag, max c.i1 (c.i2 - n), c.i2, max c.j1 (c.j2 - n), c.j2⟩
     else c) :: rest

/-- The "fixup" of the trailing opcode in `get_grouped_opcodes`: a trailing
equal run is trimmed to its first `n` lines. -/
def fixupLast (n : Nat) (codes : List Opcode) : List Opcode :=
  match codes.getLast? with
  | none => []
  | some c =>
    codes.dropLast ++
      [if c.tag = .equal then
         ⟨c.tag, c.i1, min c.i2 (c.i1 + n), c.j1, min c.j2 (c.j1 + n)⟩
       else c]

/-- The grouping loop of `get_grouped_opcodes`: a long equal run
(strictly more than `2 n` lines) ends the current group (keeping the first
`n` lines of the run) and starts the next group (keeping the last `n`
lines); the final pending group is emitted unless it is a single equal
opcode. -/
def groupLoop (n : Nat) : List Opcode → List Opcode → List (List Opcode)
  | [], group =>
    match group with
    | [] => []
    | [g] => if g.tag = .equal then [] else [[g]]
    | _ => [group]
  | c :: rest, group =>
    if c.tag = .equal ∧ 2 * n < c.i2 - c.i1 then
      (group ++ [⟨c.tag, c.i1, min c.i2 (c.i1 + n), c.j1, min c.j2 (c.j1 + n)⟩]) ::
        groupLoop n rest [⟨c.tag, max c.i1 (c.i2 - n), c.i2, max c.j1 (c.j2 - n), c.j2⟩]
    else groupLoop n rest (group ++ [c])

/-- `SequenceMatcher.get_grouped_opcodes(n)` (the default context width in
`unified_diff` is `n = 3`); an empty opcode list is replaced by a single
placeholder equal opcode. -/
def get_grouped_opcodes (n : Nat) (a b : List α) : List (List Opcode) :=
  let codes := get_opcodes a b
  groupLoop n
    (fixupLast n (fixupFirst n (if codes.isEmpty then [⟨.equal, 0, 1, 0, 1⟩] else codes)))
    []

/-- The body lines contributed by one opcode of a group: equal opcodes
yield space-prefixed context lines; replace/delete yield `-` lines from the
old slice; replace/insert yield `+` lines from the new slice. -/
def renderOpcodeLines (a b : List String) (op : Opcode) : List String :=
  if op.tag = .equal then (slice a op.i1 op.i2).map (fun l => " " ++ l)
  else
    (if op.tag = .replace ∨ op.tag = .delete then
       (slice a op.i1 op.i2).map (fun l => "-" ++ l)
     else []) ++
    (if op.tag = .replace ∨ op.tag = .insert then
       (slice b op.j1 op.j2).map (fun l => "+" ++ l)
     else [])

/-- The `@@ -i,n +j,m @@` header of one group. -/
def hunkHeader (g : List Opcode) : String :=
  match g.head?, g.getLast? with
  | some first, some last =>
    "@@ -" ++ formatRangeUnified first.i1 last.i2 ++
      " +" ++ formatRangeUnified first.j1 last.j2 ++ " @@"
  | _, _ => ""

/-- The rendered lines of one group: its hunk header followed by its body. -/
def renderGroup (a b : List String) (g : List Opcode) : List String :=
  hunkHeader g :: g.flatMap (renderOpcodeLines a b)

/-- `make_unified_diff(old_text, new_text)`: the lines of
`difflib.unified_diff(old.splitlines(), new.splitlines(),
fromfile="before", tofile="after", lineterm="")` — the two file headers
(only when at least one group exists) followed by the rendered groups. -/
def make_unified_diff (old_text new_text : String) : List String :=
  let a := splitlines old_text
  let b := splitlines new_text
  let groups := get_grouped_opcodes 3 a b
  if groups.isEmpty then []
  else "--- before" :: "+++ after" :: groups.flatMap (renderGroup a b)

/-- `diff_summary(diff_lines) -> (added, removed)`: count lines starting
with `+` resp. `-`, skipping any line that starts with `"+++ "`, `"--- "`
or `"@@"`. -/
def diff_summary (diff_lines : List String) : Nat × Nat :=
  diff_lines.foldl
    (fun st line =>
      if pyStartsWith line "+++ " ∨ pyStartsWith line "--- " ∨ pyStartsWith line "@@" then st
      else if pyStartsWith line "+" then (st.1 + 1, st.2)
      else if pyStartsWith line "-" then (st.1, st.2 + 1)
      else st)
    (0, 0)

/-- Modelled from the spec: the number of new-sequence lines covered by
insert and replace opcodes. -/
def specAdded (ops : List Opcode) : Nat :=
  (ops.map (fun op =>
    if op.tag = Tag.insert ∨ op.tag = Tag.replace then op.j2 - op.j1 else 0)).sum

/-- Modelled from the spec: the number of old-sequence lines covered by
delete and replace opcodes. -/
def specRemoved (ops : List Opcode) : Nat :=
  (ops.map (fun op =>
    if op.tag = Tag.delete ∨ op.tag = Tag.replace then op.i2 - op.i1 else 0)).sum

/-- The per-line added test applied by the `diff_summary` fold. -/
def sumAddLine (line : String) : Bool :=
  !(pyStartsWith line "+++ " || pyStartsWith line "--- " || pyStartsWith line "@@") &&
    pyStartsWith line "+"

/-- The per-line removed test applied by the `diff_summary` fold. -/
def sumRemLine (line : String) : Bool :=
  !(pyStartsWith line "+++ " || pyStartsWith line "--- " || pyStartsWith line "@@") &&
    (!pyStartsWith line "+" && pyStartsWith line "-")

/-- The new-sequence lines of insert/replace opcodes that `diff_summary`
actually counts: those whose content does not begin with `"++ "` (such a
line renders as `"+++ …"` and is skipped as a header). -/
def countedAdded (b : List String) (ops : List Opcode) : Nat :=
  (ops.map (fun op =>
    if op.tag = Tag.insert ∨ op.tag = Tag.replace then
      (slice b op.j1 op.j2).countP (fun l => !pyStartsWith l "++ ")
    else 0)).sum

/-- The old-sequence lines of delete/replace opcodes that `diff_summary`
actually counts: those whose content does not begin with `"-- "` (such a
line renders as `"--- …"` and is skipped as a header). -/
def countedRemoved (a : List String) (ops : List Opcode) : Nat :=
  (ops.map (fun op =>
    if op.tag = Tag.delete ∨ op.tag = Tag.replace then
      (slice a op.i1 op.i2).countP (fun l => !pyStartsWith l "-- ")
    else 0)).sum

/-! ## The `main()` computation

`main()` performs file and browser I/O around a pure computation; the pure
part is modelled here.  The SHA-256 digest is modelled as an arbitrary
function parameter `hash`: the script only ever compares digests for
equality, so every property proved for all `hash` holds in particular for
the real digest. -/

/-- The outputs `main()` derives from the stored state and the fresh
snapshot. -/
structure MainOutputs where
  firstRun : Bool
  changed : Bool
  added : Nat
  removed : Nat
  diffLines : List String
  changeReport : String
  changeBrief : String
deriving DecidableEq, Repr

/-- The pure computation of `main()`: `oldHashFile` is the raw content of
the state-hash file, `oldSnapshot` the stored snapshot, `snapshot` the
freshly extracted text. -/
def runMain (hash : String → String) (oldHashFile oldSnapshot snapshot : String)
    (maxItems maxBlockLines : Nat) : MainOutputs :=
  let oldHash := pyStrip oldHashFile
  let newHash := hash snapshot
  let firstRun : Bool := oldHash = "" || pyStrip oldSnapshot = ""
  let changed : Bool := !firstRun && oldHash ≠ newHash
  let diffLines := make_unified_diff oldSnapshot snapshot
  let stats := diff_summary diffLines
  let rep := build_change_report oldSnapshot snapshot maxItems maxBlockLines
  { firstRun := firstRun, changed := changed, added := stats.1,
    removed := stats.2, diffLines := diffLines,
    changeReport := rep.1, changeBrief := rep.2 }

/-! ## The item loop: per-opcode emission and the truncation behaviour -/

/-- The condition guarding the clean single-line path of the builder. -/
def cleanCase (ol nl : List String) (op : Opcode) : Prop :=
  op.tag = Tag.replace ∧ (slice ol op.i1 op.i2).length = 1 ∧
    (slice nl op.j1 op.j2).length = 1

instance (ol nl : List String) (op : Opcode) : Decidable (cleanCase ol nl op) := by
  unfold cleanCase
  infer_instance

/-- The non-equal opcodes of a list, in order. -/
def nonEqualOps (ops : List Opcode) : List Opcode :=
  ops.filter (fun op => op.tag ≠ Tag.equal)

/-! ## The context resolver: characterisation and safety -/

/-- The stripped line the context walk inspects at (integer) index `i`. -/
def ctxLineAt (lines : List String) (i : Int) : String :=
  pyStrip (lines.getD i.toNat "")

/-- The walk accepts index `i`: its stripped line is non-empty and is not
(case-insensitively) the boilerplate token "notion". -/
def ctxGood (lines : List String) (i : Int) : Prop :=
  ctxLineAt lines i ≠ "" ∧ asciiLower (ctxLineAt lines i) ≠ "notion"

instance (lines : List String) (i : Int) : Decidable (ctxGood lines i) := by
  unfold ctxGood
  infer_instance

/-- The 200-line new sequence of the autojunk counterexample: the line
`"x"` occurs four times, which exceeds the popularity threshold
`len // 100 + 1 = 3` of `SequenceMatcher`'s default `autojunk=True`. -/
def autojunkB : List String :=
  ["f0", "f1", "f2", "f3", "f4", "f5", "f6", "f7", "f8", "f9", "x", "f11", 
   "f12", "f13", "f14", "f15", "f16", "f17", "f18", "f19", "f20", "f21", 
   "f22", "f23", "f24", "f25", "f26", "f27", "f28", "f29", "f30", "f31", 
   "f32", "f33", "f34", "f35", "f36", "f37", "f38", "f39", "f40", "f41", 
   "f42", "f43", "f44", "f45", "f46", "f47", "f48", "f49", "x", "f51", 
   "f52", "f53", "f54", "f55", "f56", "f57", "f58", "f59", "f60", "f61", 
   "f62", "f63", "f64", "f65", "f66", "f67", "f68", "f69", "f70", "f71", 
   "f72", "f73", "f74", "f75", "f76", "f77", "f78", "f79", "f80", "f81", 
   "f82", "f83", "f84", "f85", "f86", "f87", "f88", "f89", "x", "f91", 
   "f92", "f93", "f94", "f95", "f96", "f97", "f98", "f99", "f100", "f101", 
   "f102", "f103", "f104", "f105", "f106", "f107", "f108", "f109", "f110", 
   "f111", "f112", "f113", "f114", "f115", "f116", "f117", "f118", "f119", 
   "f120", "f121", "f122", "f123", "f124", "f125", "f126", "f127", "f128", 
   "f129", "x", "f131", "f132", "f133", "f134", "f135", "f136", "f137", 
   "f138", "f139", "f140", "f141", "f142", "f143", "f144", "f145", "f146", 
   "f147", "f148", "f149", "f150", "f151", "f152", "f153", "f154", "f155", 
   "f156", "f157", "f158", "f159", "f160", "f161", "f162", "f163", "f164", 
   "f165", "f166", "f167", "f168", "f169", "f170", "f171", "f172", "f173", 
   "f174", "f175", "f176", "f177", "f178", "f179", "f180", "f181", "f182", 
   "f183", "f184", "f185", "f186", "f187", "f188", "f189", "f190", "f191", 
   "f192", "f193", "f194", "f195", "f196", "f197", "f198", "f199"]

/-- The old sequence of the autojunk counterexample. -/
def autojunkA : List String := ["x", "q"]

/-- The defining recurrence of `coreRun` (the structural recursion above
runs on the exact remaining width `ahi - i`). -/
theorem coreRun_eq (good : α → Bool) (a b : List α) (ahi bhi i j : Nat) :
    coreRun good a b ahi bhi i j =
      if i < ahi ∧ j < bhi ∧ eqAt a b i j ∧ goodAt good b j then
        coreRun good a b ahi bhi (i + 1) (j + 1) + 1
      else 0 := by
  unfold coreRun
  rcases h : ahi - i with _ | n
  · rw [coreRunF, if_neg (by omega)]
  · rw [coreRunF]
    have hn : ahi - (i + 1) = n := by omega
    rw [hn]
    by_cases hc : j < bhi ∧ eqAt a b i j ∧ goodAt good b j
    · rw [if_pos hc, if_pos ⟨by omega, hc⟩]
    · rw [if_neg hc, if_neg (by intro hx; exact hc ⟨hx.2.1, hx.2.2⟩)]

/-- The defining recurrence of `extendLeft`. -/
theorem extendLeft_eq (a b : List α) (alo blo : Nat) (m : MatchBlock) :
    extendLeft a b alo blo m =
      if alo < m.ai ∧ blo < m.bj ∧ eqAt a b (m.ai - 1) (m.bj - 1) then
        extendLeft a b alo blo ⟨m.ai - 1, m.bj - 1, m.size + 1⟩
      else m := by
  unfold extendLeft
  obtain ⟨ai, bj, size⟩ := m
  rcases ai with _ | n
  · rw [extendLeftF, if_neg (by dsimp only; omega)]
  · rw [extendLeftF]
    rfl

/-- The defining recurrence of `extendRight`. -/
theorem extendRight_eq (a b : List α) (ahi bhi : Nat) (m : MatchBlock) :
    extendRight a b ahi bhi m =
      if m.ai + m.size < ahi ∧ m.bj + m.size < bhi ∧
          eqAt a b (m.ai + m.size) (m.bj + m.size) then
        extendRight a b ahi bhi ⟨m.ai, m.bj, m.size + 1⟩
      else m := by
  unfold extendRight
  obtain ⟨ai, bj, size⟩ := m
  rcases h : ahi - size with _ | n
  · rw [extendRightF, if_neg (by dsimp only; omega)]
  · rw [extendRightF]
    have hn : ahi - (⟨ai, bj, size + 1⟩ : MatchBlock).size = n := by
      dsimp only
      omega
    rw [hn]

/-! Basic bounds, needed already for the termination of the recursive
alignment: a block of positive size returned by `findWith` lies inside the
search region. -/

theorem coreRunF_le (good : α → Bool) (a b : List α) (bhi : Nat) :
    ∀ fuel i j, coreRunF good a b bhi fuel i j ≤ fuel := by
  intro fuel
  induction fuel with
  | zero => intro i j; rw [coreRunF]
  | succ n ih =>
    intro i j
    rw [coreRunF]
    split
    · exact Nat.succ_le_succ (ih (i + 1) (j + 1))
    · omega

theorem coreRunF_le_right (good : α → Bool) (a b : List α) (bhi : Nat) :
    ∀ fuel i j, coreRunF good a b bhi fuel i j ≤ bhi - j := by
  intro fuel
  induction fuel with
  | zero => intro i j; rw [coreRunF]; omega
  | succ n ih =>
    intro i j
    rw [coreRunF]
    split
    · have := ih (i + 1) (j + 1)
      omega
    · omega

theorem coreRun_le_left (good : α → Bool) (a b : List α) (ahi bhi i j : Nat) :
    coreRun good a b ahi bhi i j ≤ ahi - i :=
  coreRunF_le good a b bhi (ahi - i) i j

theorem coreRun_le_right (good : α → Bool) (a b : List α) (ahi bhi i j : Nat) :
    coreRun good a b ahi bhi i j ≤ bhi - j :=
  coreRunF_le_right good a b bhi (ahi - i) i j

theorem candIdx_mem {alo ahi blo bhi : Nat} {p : Nat × Nat} :
    p ∈ candIdx alo ahi blo bhi ↔
      alo ≤ p.1 ∧ p.1 < ahi ∧ blo ≤ p.2 ∧ p.2 < bhi := by
  unfold candIdx
  simp only [List.mem_flatMap, List.mem_map, List.mem_range'_1]
  constructor
  · rintro ⟨i, hi, j, hj, rfl⟩
    omega
  · rintro ⟨h1, h2, h3, h4⟩
    exact ⟨p.1, by omega, p.2, by omega, rfl⟩

/-- The accumulator's size never decreases along the core scan. -/
theorem scanGo_size_le (good : α → Bool) (a b : List α) (ahi bhi : Nat)
    (l : List (Nat × Nat)) (init : MatchBlock) :
    init.size ≤ (scanGo good a b ahi bhi l init).size := by
  induction l generalizing init with
  | nil => exact Nat.le_refl _
  | cons p rest ih =>
    rw [scanGo]
    split
    · next h =>
      have := ih (⟨p.1, p.2, coreRun good a b ahi bhi p.1 p.2⟩ : MatchBlock)
      dsimp only at this
      omega
    · exact ih init

/-- Every candidate's run length is dominated by the size of the scan
result. -/
theorem scanGo_max (good : α → Bool) (a b : List α) (ahi bhi : Nat)
    (l : List (Nat × Nat)) (init : MatchBlock) :
    ∀ p ∈ l, coreRun good a b ahi bhi p.1 p.2 ≤
      (scanGo good a b ahi bhi l init).size := by
  induction l generalizing init with
  | nil => intro p hp; cases hp
  | cons q rest ih =>
    intro p hp
    rcases List.mem_cons.mp hp with rfl | hp'
    · rw [scanGo]
      split
      · next h =>
        have := scanGo_size_le good a b ahi bhi rest
          (⟨p.1, p.2, coreRun good a b ahi bhi p.1 p.2⟩ : MatchBlock)
        dsimp only at this
        omega
      · next h =>
        have := scanGo_size_le good a b ahi bhi rest init
        omega
    · rw [scanGo]
      split
      · exact ih _ p hp'
      · exact ih _ p hp'

/-- The scan result is the initial block or a candidate start paired with
its exact run length. -/
theorem scanGo_attained (good : α → Bool) (a b : List α) (ahi bhi : Nat)
    (l : List (Nat × Nat)) (init : MatchBlock) :
    scanGo good a b ahi bhi l init = init ∨
      ∃ p ∈ l, scanGo good a b ahi bhi l init =
        ⟨p.1, p.2, coreRun good a b ahi bhi p.1 p.2⟩ := by
  induction l generalizing init with
  | nil => exact Or.inl rfl
  | cons q rest ih =>
    rw [scanGo]
    split
    · rcases ih (⟨q.1, q.2, coreRun good a b ahi bhi q.1 q.2⟩ : MatchBlock) with h | ⟨p, hp, h⟩
      · exact Or.inr ⟨q, List.mem_cons_self .., h⟩
      · exact Or.inr ⟨p, List.mem_cons_of_mem _ hp, h⟩
    · rcases ih init with h | ⟨p, hp, h⟩
      · exact Or.inl h
      · exact Or.inr ⟨p, List.mem_cons_of_mem _ hp, h⟩

/-- If the scan result has positive size then it starts at a candidate pair
inside the search region and its size is that candidate's exact run
length. -/
theorem scanBest_pos (good : α → Bool) (a b : List α) (alo ahi blo bhi : Nat)
    (hpos : 0 < (scanBest good a b alo ahi blo bhi).size) :
    alo ≤ (scanBest good a b alo ahi blo bhi).ai ∧
      (scanBest good a b alo ahi blo bhi).ai < ahi ∧
      blo ≤ (scanBest good a b alo ahi blo bhi).bj ∧
      (scanBest good a b alo ahi blo bhi).bj < bhi ∧
      (scanBest good a b alo ahi blo bhi).size =
        coreRun good a b ahi bhi (scanBest good a b alo ahi blo bhi).ai
          (scanBest good a b alo ahi blo bhi).bj := by
  rcases scanGo_attained good a b ahi bhi (candIdx alo ahi blo bhi)
      ⟨alo, blo, 0⟩ with h | ⟨p, hp, h⟩
  · rw [scanBest] at hpos
    rw [h] at hpos
    cases hpos
  · have hb := candIdx_mem.mp hp
    rw [scanBest] at *
    rw [h]
    exact ⟨hb.1, hb.2.1, hb.2.2.1, hb.2.2.2, rfl⟩

/-- The starting corner of the scan result. -/
theorem scanBest_le (good : α → Bool) (a b : List α) (alo ahi blo bhi : Nat) :
    alo ≤ (scanBest good a b alo ahi blo bhi).ai ∧
      blo ≤ (scanBest good a b alo ahi blo bhi).bj := by
  rcases scanGo_attained good a b ahi bhi (candIdx alo ahi blo bhi)
      ⟨alo, blo, 0⟩ with h | ⟨p, hp, h⟩
  · rw [scanBest, h]; exact ⟨Nat.le_refl _, Nat.le_refl _⟩
  · have hb := candIdx_mem.mp hp
    rw [scanBest, h]
    exact ⟨hb.1, hb.2.2.1⟩

theorem candIdx_nil {alo ahi blo bhi : Nat} (h : ahi ≤ alo ∨ bhi ≤ blo) :
    candIdx alo ahi blo bhi = [] := by
  unfold candIdx
  rcases h with h | h
  · rw [Nat.sub_eq_zero_of_le h]
    rfl
  · rw [Nat.sub_eq_zero_of_le h]
    simp

theorem extendLeftF_sum (a b : List α) (alo blo : Nat) :
    ∀ fuel (m : MatchBlock),
      (extendLeftF a b alo blo fuel m).ai + (extendLeftF a b alo blo fuel m).size =
          m.ai + m.size ∧
        (extendLeftF a b alo blo fuel m).bj + (extendLeftF a b alo blo fuel m).size =
          m.bj + m.size := by
  intro fuel
  induction fuel with
  | zero => intro m; exact ⟨rfl, rfl⟩
  | succ n ih =>
    intro m
    rw [extendLeftF]
    split
    · have := ih ⟨m.ai - 1, m.bj - 1, m.size + 1⟩
      dsimp only at this
      omega
    · exact ⟨rfl, rfl⟩

/-- The extension loops keep the far corner of the block fixed. -/
theorem extendLeft_sum (a b : List α) (alo blo : Nat) (m : MatchBlock) :
    (extendLeft a b alo blo m).ai + (extendLeft a b alo blo m).size = m.ai + m.size ∧
      (extendLeft a b alo blo m).bj + (extendLeft a b alo blo m).size = m.bj + m.size :=
  extendLeftF_sum a b alo blo m.ai m

theorem extendLeftF_ge (a b : List α) (alo blo : Nat) :
    ∀ fuel (m : MatchBlock), alo ≤ m.ai → blo ≤ m.bj →
      alo ≤ (extendLeftF a b alo blo fuel m).ai ∧
        blo ≤ (extendLeftF a b alo blo fuel m).bj := by
  intro fuel
  induction fuel with
  | zero => intro m h1 h2; exact ⟨h1, h2⟩
  | succ n ih =>
    intro m h1 h2
    rw [extendLeftF]
    split
    · exact ih ⟨m.ai - 1, m.bj - 1, m.size + 1⟩ (by dsimp only; omega)
        (by dsimp only; omega)
    · exact ⟨h1, h2⟩

theorem extendLeft_ge (a b : List α) (alo blo : Nat) (m : MatchBlock)
    (h1 : alo ≤ m.ai) (h2 : blo ≤ m.bj) :
    alo ≤ (extendLeft a b alo blo m).ai ∧ blo ≤ (extendLeft a b alo blo m).bj :=
  extendLeftF_ge a b alo blo m.ai m h1 h2

theorem extendRightF_start (a b : List α) (ahi bhi : Nat) :
    ∀ fuel (m : MatchBlock),
      (extendRightF a b ahi bhi fuel m).ai = m.ai ∧
        (extendRightF a b ahi bhi fuel m).bj = m.bj := by
  intro fuel
  induction fuel with
  | zero => intro m; exact ⟨rfl, rfl⟩
  | succ n ih =>
    intro m
    rw [extendRightF]
    split
    · exact ih ⟨m.ai, m.bj, m.size + 1⟩
    · exact ⟨rfl, rfl⟩

theorem extendRight_start (a b : List α) (ahi bhi : Nat) (m : MatchBlock) :
    (extendRight a b ahi bhi m).ai = m.ai ∧ (extendRight a b ahi bhi m).bj = m.bj :=
  extendRightF_start a b ahi bhi (ahi - m.size) m

theorem extendRightF_le (a b : List α) (ahi bhi : Nat) :
    ∀ fuel (m : MatchBlock), m.ai + m.size ≤ ahi → m.bj + m.size ≤ bhi →
      (extendRightF a b ahi bhi fuel m).ai + (extendRightF a b ahi bhi fuel m).size ≤ ahi ∧
        (extendRightF a b ahi bhi fuel m).bj + (extendRightF a b ahi bhi fuel m).size ≤ bhi := by
  intro fuel
  induction fuel with
  | zero => intro m h1 h2; exact ⟨h1, h2⟩
  | succ n ih =>
    intro m h1 h2
    rw [extendRightF]
    split
    · next hc =>
      exact ih ⟨m.ai, m.bj, m.size + 1⟩ (by dsimp only; omega) (by dsimp only; omega)
    · exact ⟨h1, h2⟩

theorem extendRight_le (a b : List α) (ahi bhi : Nat) (m : MatchBlock)
    (h1 : m.ai + m.size ≤ ahi) (h2 : m.bj + m.size ≤ bhi) :
    (extendRight a b ahi bhi m).ai + (extendRight a b ahi bhi m).size ≤ ahi ∧
      (extendRight a b ahi bhi m).bj + (extendRight a b ahi bhi m).size ≤ bhi :=
  extendRightF_le a b ahi bhi (ahi - m.size) m h1 h2

/-- In a well-formed region the scan result lies inside the region. -/
theorem scanBest_bounds (good : α → Bool) (a b : List α) {alo ahi blo bhi : Nat}
    (h1 : alo ≤ ahi) (h2 : blo ≤ bhi) :
    alo ≤ (scanBest good a b alo ahi blo bhi).ai ∧
      (scanBest good a b alo ahi blo bhi).ai +
        (scanBest good a b alo ahi blo bhi).size ≤ ahi ∧
      blo ≤ (scanBest good a b alo ahi blo bhi).bj ∧
      (scanBest good a b alo ahi blo bhi).bj +
        (scanBest good a b alo ahi blo bhi).size ≤ bhi := by
  rcases scanGo_attained good a b ahi bhi (candIdx alo ahi blo bhi)
      ⟨alo, blo, 0⟩ with h | ⟨p, hp, h⟩
  · rw [scanBest, h]
    dsimp only
    omega
  · have hb := candIdx_mem.mp hp
    have hL := coreRun_le_left good a b ahi bhi p.1 p.2
    have hR := coreRun_le_right good a b ahi bhi p.1 p.2
    rw [scanBest, h]
    dsimp only
    omega

/-- In a well-formed region `findWith` returns a block inside the region. -/
theorem findWith_bounds (good : α → Bool) (ext : Bool) (a b : List α)
    {alo ahi blo bhi : Nat} (h1 : alo ≤ ahi) (h2 : blo ≤ bhi) :
    alo ≤ (findWith good ext a b alo ahi blo bhi).ai ∧
      (findWith good ext a b alo ahi blo bhi).ai +
        (findWith good ext a b alo ahi blo bhi).size ≤ ahi ∧
      blo ≤ (findWith good ext a b alo ahi blo bhi).bj ∧
      (findWith good ext a b alo ahi blo bhi).bj +
        (findWith good ext a b alo ahi blo bhi).size ≤ bhi := by
  have hscan := @scanBest_bounds _ _ good a b alo ahi blo bhi h1 h2
  unfold findWith
  cases ext with
  | false => exact hscan
  | true =>
    rw [if_pos rfl]
    have hsum := extendLeft_sum a b alo blo (scanBest good a b alo ahi blo bhi)
    have hge := extendLeft_ge a b alo blo (scanBest good a b alo ahi blo bhi)
      hscan.1 hscan.2.2.1
    have hst := extendRight_start a b ahi bhi
      (extendLeft a b alo blo (scanBest good a b alo ahi blo bhi))
    have hle := extendRight_le a b ahi bhi
      (extendLeft a b alo blo (scanBest good a b alo ahi blo bhi))
      (by omega) (by omega)
    omega

/-- A block of positive size returned by `findWith` lies inside the search
region, in every case (degenerate regions only ever produce size 0). -/
theorem findWith_pos_bounds (good : α → Bool) (ext : Bool) (a b : List α)
    {alo ahi blo bhi : Nat}
    (hpos : 0 < (findWith good ext a b alo ahi blo bhi).size) :
    alo ≤ (findWith good ext a b alo ahi blo bhi).ai ∧
      (findWith good ext a b alo ahi blo bhi).ai +
        (findWith good ext a b alo ahi blo bhi).size ≤ ahi ∧
      blo ≤ (findWith good ext a b alo ahi blo bhi).bj ∧
      (findWith good ext a b alo ahi blo bhi).bj +
        (findWith good ext a b alo ahi blo bhi).size ≤ bhi := by
  by_cases h1 : alo ≤ ahi
  · by_cases h2 : blo ≤ bhi
    · exact findWith_bounds good ext a b h1 h2
    · exfalso
      have hscan : scanBest good a b alo ahi blo bhi = ⟨alo, blo, 0⟩ := by
        rw [scanBest, candIdx_nil (Or.inr (by omega))]
        rfl
      unfold findWith at hpos
      rw [hscan] at hpos
      cases ext with
      | false => simp at hpos
      | true =>
        rw [if_pos rfl] at hpos
        rw [extendLeft_eq, if_neg (by dsimp only; omega)] at hpos
        rw [extendRight_eq, if_neg (by dsimp only; omega)] at hpos
        simp at hpos
  · exfalso
    have hscan : scanBest good a b alo ahi blo bhi = ⟨alo, blo, 0⟩ := by
      rw [scanBest, candIdx_nil (Or.inl (by omega))]
      rfl
    unfold findWith at hpos
    rw [hscan] at hpos
    cases ext with
    | false => simp at hpos
    | true =>
      rw [if_pos rfl] at hpos
      rw [extendLeft_eq, if_neg (by dsimp only; omega)] at hpos
      rw [extendRight_eq, if_neg (by dsimp only; omega)] at hpos
      simp at hpos

/-- Any sufficient fuel computes the same block list. -/
theorem alignBlocksF_congr (good : α → Bool) (ext : Bool) (a b : List α) :
    ∀ fuel1 fuel2 alo ahi blo bhi,
      (ahi - alo) + (bhi - blo) ≤ fuel1 → (ahi - alo) + (bhi - blo) ≤ fuel2 →
      alignBlocksF good ext a b fuel1 alo ahi blo bhi =
        alignBlocksF good ext a b fuel2 alo ahi blo bhi := by
  intro fuel1
  induction fuel1 with
  | zero =>
    intro fuel2 alo ahi blo bhi h1 h2
    rw [alignBlocksF]
    cases fuel2 with
    | zero => rfl
    | succ m =>
      rw [alignBlocksF, if_neg]
      intro hpos
      have hb := findWith_pos_bounds good ext a b hpos
      omega
  | succ n ih =>
    intro fuel2 alo ahi blo bhi h1 h2
    cases fuel2 with
    | zero =>
      rw [alignBlocksF, alignBlocksF, if_neg]
      intro hpos
      have hb := findWith_pos_bounds good ext a b hpos
      omega
    | succ m =>
      rw [alignBlocksF, alignBlocksF]
      by_cases hpos : 0 < (findWith good ext a b alo ahi blo bhi).size
      · have hb := findWith_pos_bounds good ext a b hpos
        rw [if_pos hpos, if_pos hpos]
        rw [ih m alo (findWith good ext a b alo ahi blo bhi).ai
              blo (findWith good ext a b alo ahi blo bhi).bj
              (by omega) (by omega),
            ih m ((findWith good ext a b alo ahi blo bhi).ai +
                (findWith good ext a b alo ahi blo bhi).size) ahi
              ((findWith good ext a b alo ahi blo bhi).bj +
                (findWith good ext a b alo ahi blo bhi).size) bhi
              (by omega) (by omega)]
      · rw [if_neg hpos, if_neg hpos]

/-- The defining recurrence of `alignBlocks`. -/
theorem alignBlocks_eq (good : α → Bool) (ext : Bool) (a b : List α)
    (alo ahi blo bhi : Nat) :
    alignBlocks good ext a b alo ahi blo bhi =
      if 0 < (findWith good ext a b alo ahi blo bhi).size then
        alignBlocks good ext a b alo (findWith good ext a b alo ahi blo bhi).ai
            blo (findWith good ext a b alo ahi blo bhi).bj ++
          findWith good ext a b alo ahi blo bhi ::
            alignBlocks good ext a b
              ((findWith good ext a b alo ahi blo bhi).ai +
                (findWith good ext a b alo ahi blo bhi).size) ahi
              ((findWith good ext a b alo ahi blo bhi).bj +
                (findWith good ext a b alo ahi blo bhi).size) bhi
      else [] := by
  unfold alignBlocks
  rcases h : (ahi - alo) + (bhi - blo) with _ | n
  · rw [alignBlocksF, if_neg]
    intro hpos
    have hb := findWith_pos_bounds good ext a b hpos
    omega
  · rw [alignBlocksF]
    by_cases hpos : 0 < (findWith good ext a b alo ahi blo bhi).size
    · have hb := findWith_pos_bounds good ext a b hpos
      rw [if_pos hpos, if_pos hpos]
      rw [alignBlocksF_congr good ext a b n
            (((findWith good ext a b alo ahi blo bhi).ai - alo) +
              ((findWith good ext a b alo ahi blo bhi).bj - blo))
            alo (findWith good ext a b alo ahi blo bhi).ai
            blo (findWith good ext a b alo ahi blo bhi).bj
            (by omega) (by omega),
          alignBlocksF_congr good ext a b n
            ((ahi - ((findWith good ext a b alo ahi blo bhi).ai +
                (findWith good ext a b alo ahi blo bhi).size)) +
              (bhi - ((findWith good ext a b alo ahi blo bhi).bj +
                (findWith good ext a b alo ahi blo bhi).size)))
            ((findWith good ext a b alo ahi blo bhi).ai +
              (findWith good ext a b alo ahi blo bhi).size) ahi
            ((findWith good ext a b alo ahi blo bhi).bj +
              (findWith good ext a b alo ahi blo bhi).size) bhi
            (by omega) (by omega)]
    · rw [if_neg hpos, if_neg hpos]

/-- Modelled from the spec: the reference greedy alignment — find the
longest common contiguous run (earliest in `old`, then earliest in `new` on
ties), mark it `Equal`, recurse on the regions before and after it, and
classify each leftover region as `Replace`/`Delete`/`Insert` according to
which sides are non-empty. -/
theorem longestCommonRun_pos_bounds (a b : List α) {alo ahi blo bhi : Nat}
    (hpos : 0 < (longestCommonRun a b alo ahi blo bhi).size) :
    alo ≤ (longestCommonRun a b alo ahi blo bhi).ai ∧
      (longestCommonRun a b alo ahi blo bhi).ai +
        (longestCommonRun a b alo ahi blo bhi).size ≤ ahi ∧
      blo ≤ (longestCommonRun a b alo ahi blo bhi).bj ∧
      (longestCommonRun a b alo ahi blo bhi).bj +
        (longestCommonRun a b alo ahi blo bhi).size ≤ bhi :=
  findWith_pos_bounds (fun _ => true) false a b hpos

/-- Any sufficient fuel computes the same reference opcode list.  (Unlike
the block recursion, the leaves here inspect the region, so the fuel must
exceed the region width rather than merely reach it.) -/
theorem refOpcodesAuxF_congr (a b : List α) :
    ∀ fuel1 fuel2 alo ahi blo bhi,
      (ahi - alo) + (bhi - blo) < fuel1 → (ahi - alo) + (bhi - blo) < fuel2 →
      refOpcodesAuxF a b fuel1 alo ahi blo bhi =
        refOpcodesAuxF a b fuel2 alo ahi blo bhi := by
  intro fuel1
  induction fuel1 with
  | zero => intro fuel2 alo ahi blo bhi h1 h2; omega
  | succ n ih =>
    intro fuel2 alo ahi blo bhi h1 h2
    cases fuel2 with
    | zero => omega
    | succ m =>
      rw [refOpcodesAuxF, refOpcodesAuxF]
      by_cases hpos : 0 < (longestCommonRun a b alo ahi blo bhi).size
      · have hb := longestCommonRun_pos_bounds a b hpos
        rw [if_pos hpos, if_pos hpos]
        rw [ih m alo (longestCommonRun a b alo ahi blo bhi).ai
              blo (longestCommonRun a b alo ahi blo bhi).bj
              (by omega) (by omega),
            ih m ((longestCommonRun a b alo ahi blo bhi).ai +
                (longestCommonRun a b alo ahi blo bhi).size) ahi
              ((longestCommonRun a b alo ahi blo bhi).bj +
                (longestCommonRun a b alo ahi blo bhi).size) bhi
              (by omega) (by omega)]
      · rw [if_neg hpos, if_neg hpos]

/-- The defining recurrence of `refOpcodesAux`. -/
theorem refOpcodesAux_eq (a b : List α) (alo ahi blo bhi : Nat) :
    refOpcodesAux a b alo ahi blo bhi =
      if 0 < (longestCommonRun a b alo ahi blo bhi).size then
        refOpcodesAux a b alo (longestCommonRun a b alo ahi blo bhi).ai
            blo (longestCommonRun a b alo ahi blo bhi).bj ++
          ⟨.equal, (longestCommonRun a b alo ahi blo bhi).ai,
              (longestCommonRun a b alo ahi blo bhi).ai +
                (longestCommonRun a b alo ahi blo bhi).size,
              (longestCommonRun a b alo ahi blo bhi).bj,
              (longestCommonRun a b alo ahi blo bhi).bj +
                (longestCommonRun a b alo ahi blo bhi).size⟩ ::
            refOpcodesAux a b
              ((longestCommonRun a b alo ahi blo bhi).ai +
                (longestCommonRun a b alo ahi blo bhi).size) ahi
              ((longestCommonRun a b alo ahi blo bhi).bj +
                (longestCommonRun a b alo ahi blo bhi).size) bhi
      else if alo < ahi ∧ blo < bhi then [⟨.replace, alo, ahi, blo, bhi⟩]
      else if alo < ahi then [⟨.delete, alo, ahi, blo, bhi⟩]
      else if blo < bhi then [⟨.insert, alo, ahi, blo, bhi⟩]
      else [] := by
  unfold refOpcodesAux
  rw [refOpcodesAuxF]
  by_cases hpos : 0 < (longestCommonRun a b alo ahi blo bhi).size
  · have hb := longestCommonRun_pos_bounds a b hpos
    rw [if_pos hpos, if_pos hpos]
    rw [refOpcodesAuxF_congr a b ((ahi - alo) + (bhi - blo))
          ((((longestCommonRun a b alo ahi blo bhi).ai - alo) +
            ((longestCommonRun a b alo ahi blo bhi).bj - blo)) + 1)
          alo (longestCommonRun a b alo ahi blo bhi).ai
          blo (longestCommonRun a b alo ahi blo bhi).bj
          (by omega) (by omega),
        refOpcodesAuxF_congr a b ((ahi - alo) + (bhi - blo))
          (((ahi - ((longestCommonRun a b alo ahi blo bhi).ai +
              (longestCommonRun a b alo ahi blo bhi).size)) +
            (bhi - ((longestCommonRun a b alo ahi blo bhi).bj +
              (longestCommonRun a b alo ahi blo bhi).size))) + 1)
          ((longestCommonRun a b alo ahi blo bhi).ai +
            (longestCommonRun a b alo ahi blo bhi).size) ahi
          ((longestCommonRun a b alo ahi blo bhi).bj +
            (longestCommonRun a b alo ahi blo bhi).size) bhi
          (by omega) (by omega)]
  · rw [if_neg hpos, if_neg hpos]

/-! ## Characterisation of `coreRun` -/

/-- Every position strictly inside a core run satisfies the run
condition. -/
theorem coreRun_char (good : α → Bool) (a b : List α) (ahi bhi : Nat) :
    ∀ (i j t : Nat), t < coreRun good a b ahi bhi i j →
      i + t < ahi ∧ j + t < bhi ∧ eqAt a b (i + t) (j + t) ∧
        goodAt good b (j + t) := by
  intro i j t
  induction t generalizing i j with
  | zero =>
    intro ht
    rw [coreRun_eq] at ht
    by_cases hc : i < ahi ∧ j < bhi ∧ eqAt a b i j ∧ goodAt good b j
    · simpa using hc
    · rw [if_neg hc] at ht
      omega
  | succ t ih =>
    intro ht
    rw [coreRun_eq] at ht
    by_cases hc : i < ahi ∧ j < bhi ∧ eqAt a b i j ∧ goodAt good b j
    · rw [if_pos hc] at ht
      have := ih (i + 1) (j + 1) (by omega)
      constructor
      · omega
      constructor
      · omega
      constructor
      · have h1 : i + 1 + t = i + (t + 1) := by omega
        have h2 : j + 1 + t = j + (t + 1) := by omega
        rw [h1, h2] at this
        exact this.2.2.1
      · have h2 : j + 1 + t = j + (t + 1) := by omega
        rw [h2] at this
        exact this.2.2.2
    · rw [if_neg hc] at ht
      omega

/-- A run of `k` valid positions pushes `coreRun` to at least `k`. -/
theorem coreRun_ge (good : α → Bool) (a b : List α) (ahi bhi : Nat) :
    ∀ (k i j : Nat),
      (∀ t, t < k → i + t < ahi ∧ j + t < bhi ∧ eqAt a b (i + t) (j + t) ∧
        goodAt good b (j + t)) →
      k ≤ coreRun good a b ahi bhi i j := by
  intro k
  induction k with
  | zero => intro i j _; omega
  | succ n ih =>
    intro i j h
    have h0 := h 0 (by omega)
    simp only [Nat.add_zero] at h0
    rw [coreRun_eq, if_pos h0]
    have : n ≤ coreRun good a b ahi bhi (i + 1) (j + 1) := by
      refine ih (i + 1) (j + 1) ?_
      intro t ht
      have := h (t + 1) (by omega)
      constructor
      · omega
      constructor
      · omega
      constructor
      · have h1 : i + 1 + t = i + (t + 1) := by omega
        have h2 : j + 1 + t = j + (t + 1) := by omega
        rw [h1, h2]
        exact this.2.2.1
      · have h2 : j + 1 + t = j + (t + 1) := by omega
        rw [h2]
        exact this.2.2.2
    omega

/-- `coreRun` is monotone in the region's upper bounds. -/
theorem coreRun_mono (good : α → Bool) (a b : List α)
    {ahi bhi ahi' bhi' : Nat} (h1 : ahi' ≤ ahi) (h2 : bhi' ≤ bhi) (i j : Nat) :
    coreRun good a b ahi' bhi' i j ≤ coreRun good a b ahi bhi i j := by
  refine coreRun_ge good a b ahi bhi _ i j ?_
  intro t ht
  have := coreRun_char good a b ahi' bhi' i j t ht
  exact ⟨by omega, by omega, this.2.2.1, this.2.2.2⟩

/-- The run stops at index `coreRun`: the condition fails there. -/
theorem coreRun_stop (good : α → Bool) (a b : List α) (ahi bhi i j : Nat) :
    ¬(i + coreRun good a b ahi bhi i j < ahi ∧
      j + coreRun good a b ahi bhi i j < bhi ∧
      eqAt a b (i + coreRun good a b ahi bhi i j)
        (j + coreRun good a b ahi bhi i j) ∧
      goodAt good b (j + coreRun good a b ahi bhi i j)) := by
  intro hcond
  have := coreRun_ge good a b ahi bhi (coreRun good a b ahi bhi i j + 1) i j ?_
  · omega
  · intro t ht
    by_cases he : t < coreRun good a b ahi bhi i j
    · exact coreRun_char good a b ahi bhi i j t he
    · have : t = coreRun good a b ahi bhi i j := by omega
      rw [this]
      exact hcond

/-- Under the trivial filter, a matched position is automatically good. -/
theorem goodAt_true_of_eqAt (a b : List α) (i j : Nat)
    (h : eqAt a b i j) : goodAt (fun _ => true) b j = true := by
  unfold eqAt at h
  unfold goodAt
  cases ha : a.get? i with
  | none => rw [ha] at h; cases hb : b.get? j with
    | none => simp [hb] at h ⊢
    | some y => rfl
  | some x => cases hb : b.get? j with
    | none => rw [ha, hb] at h; simp at h
    | some y => rfl

/-! ## With no junk filtering, the extension loops never fire -/

/-- Under the trivial filter the scan result is already maximally extended
to the left. -/
theorem extendLeft_true_noop (a b : List α) (alo ahi blo bhi : Nat) :
    extendLeft a b alo blo (scanBest (fun _ => true) a b alo ahi blo bhi) =
      scanBest (fun _ => true) a b alo ahi blo bhi := by
  rw [extendLeft_eq, if_neg]
  intro hguard
  rcases scanGo_attained (fun _ => true) a b ahi bhi (candIdx alo ahi blo bhi)
      ⟨alo, blo, 0⟩ with h | ⟨p, hp, h⟩
  · rw [scanBest] at hguard
    rw [h] at hguard
    dsimp only at hguard
    omega
  · have hbnd := candIdx_mem.mp hp
    rw [scanBest] at hguard
    rw [h] at hguard
    dsimp only at hguard
    obtain ⟨hg1, hg2, hg3⟩ := hguard
    have hgood := goodAt_true_of_eqAt a b (p.1 - 1) (p.2 - 1) hg3
    have hstep : coreRun (fun _ => true) a b ahi bhi (p.1 - 1) (p.2 - 1) =
        coreRun (fun _ => true) a b ahi bhi (p.1 - 1 + 1) (p.2 - 1 + 1) + 1 := by
      rw [coreRun_eq, if_pos ⟨by omega, by omega, hg3, hgood⟩]
    have hp1 : p.1 - 1 + 1 = p.1 := by omega
    have hp2 : p.2 - 1 + 1 = p.2 := by omega
    rw [hp1, hp2] at hstep
    have hmax := scanGo_max (fun _ => true) a b ahi bhi (candIdx alo ahi blo bhi)
      ⟨alo, blo, 0⟩ (p.1 - 1, p.2 - 1)
      (candIdx_mem.mpr ⟨by omega, by omega, by omega, by omega⟩)
    rw [h] at hmax
    dsimp only at hmax
    omega

/-- Under the trivial filter the scan result is already maximally extended
to the right. -/
theorem extendRight_true_noop (a b : List α) (alo ahi blo bhi : Nat) :
    extendRight a b ahi bhi (scanBest (fun _ => true) a b alo ahi blo bhi) =
      scanBest (fun _ => true) a b alo ahi blo bhi := by
  rw [extendRight_eq, if_neg]
  intro hguard
  rcases scanGo_attained (fun _ => true) a b ahi bhi (candIdx alo ahi blo bhi)
      ⟨alo, blo, 0⟩ with h | ⟨p, hp, h⟩
  · rw [scanBest] at hguard
    rw [h] at hguard
    dsimp only at hguard
    obtain ⟨hg1, hg2, hg3⟩ := hguard
    have hgood := goodAt_true_of_eqAt a b (alo + 0) (blo + 0) hg3
    have hpos : 1 ≤ coreRun (fun _ => true) a b ahi bhi alo blo := by
      refine coreRun_ge (fun _ => true) a b ahi bhi 1 alo blo ?_
      intro t ht
      have h0 : t = 0 := by omega
      subst h0
      exact ⟨by omega, by omega, hg3, hgood⟩
    have hmax := scanGo_max (fun _ => true) a b ahi bhi (candIdx alo ahi blo bhi)
      ⟨alo, blo, 0⟩ (alo, blo)
      (candIdx_mem.mpr ⟨by omega, by omega, by omega, by omega⟩)
    rw [h] at hmax
    dsimp only at hmax
    omega
  · rw [scanBest] at hguard
    rw [h] at hguard
    dsimp only at hguard
    obtain ⟨hg1, hg2, hg3⟩ := hguard
    have hgood := goodAt_true_of_eqAt a b
      (p.1 + coreRun (fun _ => true) a b ahi bhi p.1 p.2)
      (p.2 + coreRun (fun _ => true) a b ahi bhi p.1 p.2) hg3
    exact coreRun_stop (fun _ => true) a b ahi bhi p.1 p.2
      ⟨hg1, hg2, hg3, hgood⟩

/-- Under the trivial filter, running the extension loops or not makes no
difference: `findWith (fun _ => true) true = longestCommonRun`. -/
theorem findWith_true_ext (a b : List α) (alo ahi blo bhi : Nat) :
    findWith (fun _ => true) true a b alo ahi blo bhi =
      longestCommonRun a b alo ahi blo bhi := by
  have h1 : findWith (fun _ : α => true) true a b alo ahi blo bhi =
      extendRight a b ahi bhi (extendLeft a b alo blo
        (scanBest (fun _ => true) a b alo ahi blo bhi)) := rfl
  have h2 : longestCommonRun a b alo ahi blo bhi =
      scanBest (fun _ => true) a b alo ahi blo bhi := rfl
  rw [h1, h2, extendLeft_true_noop, extendRight_true_noop]

/-- When the new sequence has fewer than 200 lines, `autojunk` purges
nothing. -/
theorem isPopular_short (b : List α) (h : b.length < 200) (y : α) :
    isPopular b y = false := by
  unfold isPopular
  have : (200 ≤ b.length) = False := by simp; omega
  rw [Bool.and_eq_false_iff]
  left
  simp
  omega

/-- When the new sequence has fewer than 200 lines, the script's
`find_longest_match` coincides with the reference longest-common-run
search. -/
theorem find_longest_match_short (a b : List α) (h : b.length < 200)
    (alo ahi blo bhi : Nat) :
    find_longest_match a b alo ahi blo bhi =
      longestCommonRun a b alo ahi blo bhi := by
  unfold find_longest_match
  have hgood : (fun y => !isPopular b y) = (fun _ : α => true) := by
    funext y
    rw [isPopular_short b h y]
    rfl
  rw [hgood]
  exact findWith_true_ext a b alo ahi blo bhi

/-- The alignment recursion only depends on the search through its results:
two configurations whose searches agree on every region produce the same
blocks. -/
theorem alignBlocks_congr_find (good1 good2 : α → Bool) (ext1 ext2 : Bool)
    (a b : List α)
    (hfind : ∀ alo ahi blo bhi, findWith good1 ext1 a b alo ahi blo bhi =
      findWith good2 ext2 a b alo ahi blo bhi) :
    ∀ (N alo ahi blo bhi : Nat), (ahi - alo) + (bhi - blo) ≤ N →
      alignBlocks good1 ext1 a b alo ahi blo bhi =
        alignBlocks good2 ext2 a b alo ahi blo bhi := by
  intro N
  induction N with
  | zero =>
    intro alo ahi blo bhi hN
    conv_lhs => rw [alignBlocks_eq]
    conv_rhs => rw [alignBlocks_eq]
    rw [hfind]
    split
    · next hpos =>
      have hb := findWith_pos_bounds good2 ext2 a b hpos
      omega
    · rfl
  | succ n ih =>
    intro alo ahi blo bhi hN
    conv_lhs => rw [alignBlocks_eq]
    conv_rhs => rw [alignBlocks_eq]
    rw [hfind]
    by_cases hpos : 0 < (findWith good2 ext2 a b alo ahi blo bhi).size
    · have hb := findWith_pos_bounds good2 ext2 a b hpos
      rw [if_pos hpos, if_pos hpos]
      rw [ih alo (findWith good2 ext2 a b alo ahi blo bhi).ai
            blo (findWith good2 ext2 a b alo ahi blo bhi).bj (by omega),
          ih ((findWith good2 ext2 a b alo ahi blo bhi).ai +
              (findWith good2 ext2 a b alo ahi blo bhi).size) ahi
            ((findWith good2 ext2 a b alo ahi blo bhi).bj +
              (findWith good2 ext2 a b alo ahi blo bhi).size) bhi (by omega)]
    · rw [if_neg hpos, if_neg hpos]

/-- Splitting the opcode walk at a block: the walk of `L ++ m :: X` is the
walk of `L` closed at `m`'s start, then `m`'s equal opcode, then the walk
of `X` from `m`'s end. -/
theorem opcodesFromBlocks_split :
    ∀ (L : List MatchBlock) (i j : Nat) (m : MatchBlock) (X : List MatchBlock),
      opcodesFromBlocks i j (L ++ m :: X) =
        opcodesFromBlocks i j (L ++ [⟨m.ai, m.bj, 0⟩]) ++
          ((if 0 < m.size then
              [⟨Tag.equal, m.ai, m.ai + m.size, m.bj, m.bj + m.size⟩] else []) ++
            opcodesFromBlocks (m.ai + m.size) (m.bj + m.size) X) := by
  intro L
  induction L with
  | nil =>
    intro i j m X
    rw [List.nil_append, List.nil_append, opcodesFromBlocks, opcodesFromBlocks]
    rw [if_neg (show ¬ 0 < (⟨m.ai, m.bj, 0⟩ : MatchBlock).size by simp)]
    rw [opcodesFromBlocks]
    dsimp only
    rw [List.append_nil, List.append_nil, List.append_assoc]
  | cons g L ih =>
    intro i j m X
    rw [List.cons_append, List.cons_append, opcodesFromBlocks, opcodesFromBlocks]
    rw [ih]
    simp only [List.append_assoc]

/-- Walking the reference-configuration blocks (closed by the region's
sentinel) produces exactly the reference opcodes of the region. -/
theorem walk_align_ref (a b : List α) :
    ∀ (N alo ahi blo bhi : Nat), (ahi - alo) + (bhi - blo) ≤ N →
      opcodesFromBlocks alo blo
          (alignBlocks (fun _ => true) false a b alo ahi blo bhi ++
            [⟨ahi, bhi, 0⟩]) =
        refOpcodesAux a b alo ahi blo bhi := by
  have hdef : ∀ alo ahi blo bhi, findWith (fun _ : α => true) false a b alo ahi blo bhi =
      longestCommonRun a b alo ahi blo bhi := fun _ _ _ _ => rfl
  intro N
  induction N with
  | zero =>
    intro alo ahi blo bhi hN
    rw [alignBlocks_eq, refOpcodesAux_eq, hdef]
    rw [if_neg (fun hpos => by
      have hb := longestCommonRun_pos_bounds a b hpos
      omega)]
    rw [if_neg (fun hpos => by
      have hb := longestCommonRun_pos_bounds a b hpos
      omega)]
    rw [List.nil_append, opcodesFromBlocks, opcodesFromBlocks]
    rw [if_neg (show ¬ 0 < (⟨ahi, bhi, 0⟩ : MatchBlock).size by simp)]
    dsimp only
    rw [List.append_nil, List.append_nil]
  | succ n ih =>
    intro alo ahi blo bhi hN
    rw [alignBlocks_eq, refOpcodesAux_eq, hdef]
    by_cases hpos : 0 < (longestCommonRun a b alo ahi blo bhi).size
    · have hb := longestCommonRun_pos_bounds a b hpos
      rw [if_pos hpos, if_pos hpos]
      rw [List.append_assoc, List.cons_append]
      rw [opcodesFromBlocks_split]
      rw [if_pos hpos]
      rw [ih alo (longestCommonRun a b alo ahi blo bhi).ai
            blo (longestCommonRun a b alo ahi blo bhi).bj (by omega),
          ih ((longestCommonRun a b alo ahi blo bhi).ai +
              (longestCommonRun a b alo ahi blo bhi).size) ahi
            ((longestCommonRun a b alo ahi blo bhi).bj +
              (longestCommonRun a b alo ahi blo bhi).size) bhi (by omega)]
      rw [List.singleton_append]
    · rw [if_neg hpos, if_neg hpos]
      rw [List.nil_append, opcodesFromBlocks, opcodesFromBlocks]
      rw [if_neg (show ¬ 0 < (⟨ahi, bhi, 0⟩ : MatchBlock).size by simp)]
      dsimp only
      rw [List.append_nil, List.append_nil]

theorem blocksMono_weaken_start {ahi bhi : Nat} {bs : List MatchBlock}
    {i j i' j' : Nat} (hi : i ≤ i') (hj : j ≤ j')
    (h : blocksMono i' j' ahi bhi bs) : blocksMono i j ahi bhi bs := by
  cases bs with
  | nil => trivial
  | cons m rest =>
    obtain ⟨h1, h2, h3, h4, h5, h6⟩ := h
    exact ⟨by omega, by omega, h3, h4, h5, h6⟩

theorem blocksMono_append {ahi bhi ahi' bhi' : Nat} {ys : List MatchBlock}
    (hahi : ahi' ≤ ahi) (hbhi : bhi' ≤ bhi) :
    ∀ (xs : List MatchBlock) (i j : Nat), blocksMono i j ahi' bhi' xs →
      i ≤ ahi' → j ≤ bhi' → blocksMono ahi' bhi' ahi bhi ys →
      blocksMono i j ahi bhi (xs ++ ys) := by
  intro xs
  induction xs with
  | nil =>
    intro i j _ hi hj hy
    exact blocksMono_weaken_start hi hj hy
  | cons m rest ih =>
    intro i j hx hi hj hy
    obtain ⟨h1, h2, h3, h4, h5, h6⟩ := hx
    exact ⟨h1, h2, by omega, by omega, h5,
      ih (m.ai + m.size) (m.bj + m.size) h6 h3 h4 hy⟩

/-- The recursive alignment produces a monotone in-region block chain. -/
theorem alignBlocks_mono (good : α → Bool) (ext : Bool) (a b : List α) :
    ∀ (N alo ahi blo bhi : Nat), (ahi - alo) + (bhi - blo) ≤ N →
      blocksMono alo blo ahi bhi (alignBlocks good ext a b alo ahi blo bhi) := by
  intro N
  induction N with
  | zero =>
    intro alo ahi blo bhi hN
    rw [alignBlocks_eq]
    split
    · next hpos =>
      have hb := findWith_pos_bounds good ext a b hpos
      omega
    · trivial
  | succ n ih =>
    intro alo ahi blo bhi hN
    rw [alignBlocks_eq]
    split
    · next hpos =>
      have hb := findWith_pos_bounds good ext a b hpos
      refine blocksMono_append (by omega) (by omega) _ alo blo
        (ih alo (findWith good ext a b alo ahi blo bhi).ai
          blo (findWith good ext a b alo ahi blo bhi).bj (by omega))
        (by omega) (by omega) ?_
      refine ⟨by omega, by omega, by omega, by omega, hpos, ?_⟩
      exact ih ((findWith good ext a b alo ahi blo bhi).ai +
          (findWith good ext a b alo ahi blo bhi).size) ahi
        ((findWith good ext a b alo ahi blo bhi).bj +
          (findWith good ext a b alo ahi blo bhi).size) bhi (by omega)
    · trivial

/-- The coalescing loop preserves the monotone chain property. -/
theorem coalesceAux_mono {ahi bhi : Nat} :
    ∀ (bs : List MatchBlock) (i1 j1 k1 pi pj : Nat),
      pi ≤ i1 → pj ≤ j1 → i1 + k1 ≤ ahi → j1 + k1 ≤ bhi →
      blocksMono (i1 + k1) (j1 + k1) ahi bhi bs →
      blocksMono pi pj ahi bhi (coalesceAux i1 j1 k1 bs) := by
  intro bs
  induction bs with
  | nil =>
    intro i1 j1 k1 pi pj h1 h2 h3 h4 _
    rw [coalesceAux]
    split
    · exact ⟨h1, h2, h3, h4, by assumption, trivial⟩
    · trivial
  | cons m rest ih =>
    intro i1 j1 k1 pi pj h1 h2 h3 h4 hm
    obtain ⟨g1, g2, g3, g4, g5, g6⟩ := hm
    rw [coalesceAux]
    split
    · next hadj =>
      refine ih i1 j1 (k1 + m.size) pi pj h1 h2 (by omega) (by omega) ?_
      have : i1 + (k1 + m.size) = m.ai + m.size := by omega
      have : j1 + (k1 + m.size) = m.bj + m.size := by omega
      exact blocksMono_weaken_start (by omega) (by omega) g6
    · next hadj =>
      by_cases hk : 0 < k1
      · rw [if_pos hk]
        refine List.cons_append _ _ _ ▸ ⟨h1, h2, h3, h4, hk, ?_⟩
        exact ih m.ai m.bj m.size (i1 + k1) (j1 + k1) g1 g2 g3 g4
          (blocksMono_weaken_start (Nat.le_refl _) (Nat.le_refl _) g6)
      · rw [if_neg hk]
        rw [List.nil_append]
        exact ih m.ai m.bj m.size pi pj (by omega) (by omega) g3 g4 g6

/-- Walking a monotone chain (closed by the sentinel) produces a chain of
consecutive opcodes that exactly covers the remainder of both sequences. -/
theorem opcodesFromBlocks_chain {la lb : Nat} :
    ∀ (bs : List MatchBlock) (i j : Nat), blocksMono i j la lb bs →
      i ≤ la → j ≤ lb →
      opcodesChain i j la lb (opcodesFromBlocks i j (bs ++ [⟨la, lb, 0⟩])) := by
  intro bs
  induction bs with
  | nil =>
    intro i j _ hi hj
    rw [List.nil_append, opcodesFromBlocks]
    rw [if_neg (show ¬ 0 < (⟨la, lb, 0⟩ : MatchBlock).size by simp)]
    rw [opcodesFromBlocks, List.append_nil, List.append_nil]
    by_cases h1 : i < (⟨la, lb, 0⟩ : MatchBlock).ai ∧ j < (⟨la, lb, 0⟩ : MatchBlock).bj
    · rw [if_pos h1]
      exact ⟨rfl, rfl, by dsimp only at h1 ⊢; omega, by dsimp only at h1 ⊢; omega,
        rfl, rfl⟩
    · rw [if_neg h1]
      by_cases h2 : i < (⟨la, lb, 0⟩ : MatchBlock).ai
      · rw [if_pos h2]
        exact ⟨rfl, rfl, by dsimp only at h2 ⊢; omega, by dsimp only; omega,
          rfl, rfl⟩
      · rw [if_neg h2]
        by_cases h3 : j < (⟨la, lb, 0⟩ : MatchBlock).bj
        · rw [if_pos h3]
          exact ⟨rfl, rfl, by dsimp only; omega, by dsimp only at h3 ⊢; omega,
            rfl, rfl⟩
        · rw [if_neg h3]
          dsimp only at h2 h3
          exact ⟨by omega, by omega⟩
  | cons m rest ih =>
    intro i j hm hi hj
    obtain ⟨g1, g2, g3, g4, g5, g6⟩ := hm
    rw [List.cons_append, opcodesFromBlocks]
    have hrec := ih (m.ai + m.size) (m.bj + m.size) g6 g3 g4
    rw [if_pos g5]
    by_cases h1 : i < m.ai ∧ j < m.bj
    · rw [if_pos h1]
      exact ⟨rfl, rfl, by dsimp only; omega, by dsimp only; omega, rfl, rfl,
        by dsimp only; omega, by dsimp only; omega, hrec⟩
    · rw [if_neg h1]
      by_cases h2 : i < m.ai
      · rw [if_pos h2]
        exact ⟨rfl, rfl, by dsimp only; omega, by dsimp only; omega, rfl, rfl,
          by dsimp only; omega, by dsimp only; omega, hrec⟩
      · rw [if_neg h2]
        by_cases h3 : j < m.bj
        · rw [if_pos h3]
          exact ⟨rfl, rfl, by dsimp only; omega, by dsimp only; omega, rfl, rfl,
            by dsimp only; omega, by dsimp only; omega, hrec⟩
        · rw [if_neg h3]
          rw [List.nil_append]
          have hia : i = m.ai := by omega
          have hjb : j = m.bj := by omega
          subst hia
          subst hjb
          exact ⟨rfl, rfl, by dsimp only; omega, by dsimp only; omega, hrec⟩

/-- C6: the opcode list of the matcher exactly covers both sequences: the
ranges are forward, consecutive (each opcode starts where the previous one
ended, on both sides), start at `(0, 0)` and end at
`(len(old), len(new))` — no gaps and no overlaps. -/
theorem get_opcodes_chain (a b : List α) :
    opcodesChain 0 0 a.length b.length (get_opcodes a b) := by
  unfold get_opcodes get_matching_blocks
  refine opcodesFromBlocks_chain _ 0 0 ?_ (by omega) (by omega)
  refine coalesceAux_mono _ 0 0 0 0 0 (by omega) (by omega) (by omega) (by omega) ?_
  exact alignBlocks_mono (fun y => !isPopular b y) true a b
    (a.length + b.length) 0 a.length 0 b.length (by omega)

theorem scanBest_max (good : α → Bool) (a b : List α) (alo ahi blo bhi : Nat) :
    ∀ p ∈ candIdx alo ahi blo bhi,
      coreRun good a b ahi bhi p.1 p.2 ≤ (scanBest good a b alo ahi blo bhi).size :=
  scanGo_max good a b ahi bhi (candIdx alo ahi blo bhi) ⟨alo, blo, 0⟩

/-- A bound below a `coreRun` with smaller region bounds yields the chain
conditions with larger region bounds. -/
theorem coreRun_chain_lift (good : α → Bool) (a b : List α)
    {ahi bhi ahi' bhi' : Nat} (h1 : ahi' ≤ ahi) (h2 : bhi' ≤ bhi)
    {i j s : Nat} (hs : s ≤ coreRun good a b ahi' bhi' i j) :
    ∀ t, t < s → i + t < ahi ∧ j + t < bhi ∧ eqAt a b (i + t) (j + t) ∧
      goodAt good b (j + t) := by
  intro t ht
  have := coreRun_char good a b ahi' bhi' i j t (by omega)
  exact ⟨by omega, by omega, this.2.2.1, this.2.2.2⟩

/-- Concatenating a chain of `s` matches with a run at `(i+s, j+s)` bounds
`coreRun` from below. -/
theorem coreRun_compose (good : α → Bool) (a b : List α) (ahi bhi : Nat)
    {i j s k : Nat}
    (hchain : ∀ t, t < s → i + t < ahi ∧ j + t < bhi ∧
      eqAt a b (i + t) (j + t) ∧ goodAt good b (j + t))
    (hrest : k ≤ coreRun good a b ahi bhi (i + s) (j + s)) :
    s + k ≤ coreRun good a b ahi bhi i j := by
  refine coreRun_ge good a b ahi bhi (s + k) i j ?_
  intro t ht
  by_cases hts : t < s
  · exact hchain t hts
  · have := coreRun_chain_lift good a b (Nat.le_refl ahi) (Nat.le_refl bhi)
      hrest (t - s) (by omega)
    have e1 : i + s + (t - s) = i + t := by omega
    have e2 : j + s + (t - s) = j + t := by omega
    rw [e1, e2] at this
    exact this

theorem blocksMono_mem {ahi bhi : Nat} :
    ∀ (bs : List MatchBlock) (i j : Nat), blocksMono i j ahi bhi bs →
      ∀ bl ∈ bs, i ≤ bl.ai ∧ bl.ai + bl.size ≤ ahi ∧ j ≤ bl.bj ∧
        bl.bj + bl.size ≤ bhi ∧ 0 < bl.size := by
  intro bs
  induction bs with
  | nil => intro i j _ bl hbl; cases hbl
  | cons m rest ih =>
    intro i j h bl hbl
    obtain ⟨h1, h2, h3, h4, h5, h6⟩ := h
    rcases List.mem_cons.mp hbl with rfl | hbl'
    · exact ⟨h1, h3, h2, h4, h5⟩
    · have := ih (m.ai + m.size) (m.bj + m.size) h6 bl hbl'
      exact ⟨by omega, this.2.1, by omega, this.2.2.2.1, this.2.2.2.2⟩

/-- Every block of the reference alignment has a `coreRun` at its start (in
its own region's bounds) at least as long as the block. -/
theorem alignBlocks_size_le (a b : List α) :
    ∀ (N alo ahi blo bhi : Nat), (ahi - alo) + (bhi - blo) ≤ N →
      ∀ bl ∈ alignBlocks (fun _ => true) false a b alo ahi blo bhi,
        bl.size ≤ coreRun (fun _ => true) a b ahi bhi bl.ai bl.bj := by
  intro N
  induction N with
  | zero =>
    intro alo ahi blo bhi hN bl hbl
    rw [alignBlocks_eq] at hbl
    split at hbl
    · next hpos =>
      have hb := findWith_pos_bounds (fun _ => true) false a b hpos
      omega
    · cases hbl
  | succ n ih =>
    intro alo ahi blo bhi hN bl hbl
    rw [alignBlocks_eq] at hbl
    split at hbl
    · next hpos =>
      have hb := findWith_pos_bounds (fun _ => true) false a b hpos
      have hsc := scanBest_pos (fun _ => true) a b alo ahi blo bhi hpos
      rcases List.mem_append.mp hbl with hL | hmr
      · have hle := ih alo (findWith (fun _ => true) false a b alo ahi blo bhi).ai
          blo (findWith (fun _ => true) false a b alo ahi blo bhi).bj
          (by omega) bl hL
        refine Nat.le_trans hle (coreRun_mono (fun _ => true) a b ?_ ?_ bl.ai bl.bj)
        · omega
        · omega
      · rcases List.mem_cons.mp hmr with rfl | hR
        · exact Nat.le_of_eq hsc.2.2.2.2
        · exact ih ((findWith (fun _ => true) false a b alo ahi blo bhi).ai +
              (findWith (fun _ => true) false a b alo ahi blo bhi).size) ahi
            ((findWith (fun _ => true) false a b alo ahi blo bhi).bj +
              (findWith (fun _ => true) false a b alo ahi blo bhi).size) bhi
            (by omega) bl hR
    · cases hbl

/-- No two consecutive blocks of the reference alignment are adjacent: each
found block is a maximal common run, so an adjacent neighbour would extend
it into a longer common run than the maximum. -/
theorem alignBlocks_ref_noAbut (a b : List α) :
    ∀ (N alo ahi blo bhi : Nat), (ahi - alo) + (bhi - blo) ≤ N →
      List.Chain' (fun m1 m2 => ¬ blocksAdj m1 m2)
        (alignBlocks (fun _ => true) false a b alo ahi blo bhi) := by
  intro N
  induction N with
  | zero =>
    intro alo ahi blo bhi hN
    rw [alignBlocks_eq]
    split
    · next hpos =>
      have hb := findWith_pos_bounds (fun _ => true) false a b hpos
      omega
    · exact List.chain'_nil
  | succ n ih =>
    intro alo ahi blo bhi hN
    rw [alignBlocks_eq]
    split
    · next hpos =>
      have hb := findWith_pos_bounds (fun _ => true) false a b hpos
      have hsc := scanBest_pos (fun _ => true) a b alo ahi blo bhi hpos
      rw [show scanBest (fun _ : α => true) a b alo ahi blo bhi =
        findWith (fun _ => true) false a b alo ahi blo bhi from rfl] at hsc
      refine List.chain'_append.mpr ⟨ih alo _ blo _ (by omega), ?_, ?_⟩
      · refine List.chain'_cons'.mpr ⟨?_, ih _ ahi _ bhi (by omega)⟩
        intro y hy hadj
        have hymem := List.mem_of_mem_head? hy
        have hymono := blocksMono_mem _ _ _
          (alignBlocks_mono (fun _ => true) false a b n
            ((findWith (fun _ => true) false a b alo ahi blo bhi).ai +
              (findWith (fun _ => true) false a b alo ahi blo bhi).size) ahi
            ((findWith (fun _ => true) false a b alo ahi blo bhi).bj +
              (findWith (fun _ => true) false a b alo ahi blo bhi).size) bhi
            (by omega)) y hymem
        have hysize := alignBlocks_size_le a b n
          ((findWith (fun _ => true) false a b alo ahi blo bhi).ai +
            (findWith (fun _ => true) false a b alo ahi blo bhi).size) ahi
          ((findWith (fun _ => true) false a b alo ahi blo bhi).bj +
            (findWith (fun _ => true) false a b alo ahi blo bhi).size) bhi
          (by omega) y hymem
        obtain ⟨hadj1, hadj2⟩ := hadj
        have hcomp : (findWith (fun _ => true) false a b alo ahi blo bhi).size + y.size ≤
            coreRun (fun _ => true) a b ahi bhi
              (findWith (fun _ => true) false a b alo ahi blo bhi).ai
              (findWith (fun _ => true) false a b alo ahi blo bhi).bj := by
          refine coreRun_compose (fun _ => true) a b ahi bhi
            (coreRun_chain_lift (fun _ => true) a b (Nat.le_refl _) (Nat.le_refl _)
              (Nat.le_of_eq hsc.2.2.2.2)) ?_
          rw [hadj1, hadj2]
          exact hysize
        have := hsc.2.2.2.2
        omega
      · intro x hx y hy hadj
        have hyeq : y = findWith (fun _ => true) false a b alo ahi blo bhi := by
          simp only [List.head?_cons, Option.mem_def, Option.some.injEq] at hy
          exact hy.symm
        subst hyeq
        have hxmem : x ∈ alignBlocks (fun _ => true) false a b alo
            (findWith (fun _ => true) false a b alo ahi blo bhi).ai
            blo (findWith (fun _ => true) false a b alo ahi blo bhi).bj := by
          rcases List.mem_getLast?_eq_getLast hx with ⟨hne, hxl⟩
          rw [hxl]
          exact List.getLast_mem hne
        have hxmono := blocksMono_mem _ _ _
          (alignBlocks_mono (fun _ => true) false a b n alo
            (findWith (fun _ => true) false a b alo ahi blo bhi).ai
            blo (findWith (fun _ => true) false a b alo ahi blo bhi).bj
            (by omega)) x hxmem
        have hxsize := alignBlocks_size_le a b n alo
          (findWith (fun _ => true) false a b alo ahi blo bhi).ai
          blo (findWith (fun _ => true) false a b alo ahi blo bhi).bj
          (by omega) x hxmem
        obtain ⟨hadj1, hadj2⟩ := hadj
        have hcomp : x.size + (findWith (fun _ => true) false a b alo ahi blo bhi).size ≤
            coreRun (fun _ => true) a b ahi bhi x.ai x.bj := by
          refine coreRun_compose (fun _ => true) a b ahi bhi
            (coreRun_chain_lift (fun _ => true) a b (by omega) (by omega) hxsize) ?_
          rw [hadj1, hadj2]
          exact Nat.le_of_eq hsc.2.2.2.2
        have hmax := scanBest_max (fun _ => true) a b alo ahi blo bhi (x.ai, x.bj)
          (candIdx_mem.mpr ⟨by omega, by omega, by omega, by omega⟩)
        rw [show scanBest (fun _ : α => true) a b alo ahi blo bhi =
          findWith (fun _ => true) false a b alo ahi blo bhi from rfl] at hmax
        dsimp only at hmax
        omega
    · exact List.chain'_nil

/-- If the pending block is non-adjacent to the head and the list is free
of adjacencies, coalescing just emits everything unchanged. -/
theorem coalesceAux_noAbut :
    ∀ (bs : List MatchBlock) (i1 j1 k1 : Nat), 0 < k1 →
      (∀ y ∈ bs.head?, ¬ blocksAdj ⟨i1, j1, k1⟩ y) →
      List.Chain' (fun m1 m2 => ¬ blocksAdj m1 m2) bs →
      (∀ bl ∈ bs, 0 < bl.size) →
      coalesceAux i1 j1 k1 bs = ⟨i1, j1, k1⟩ :: bs := by
  intro bs
  induction bs with
  | nil =>
    intro i1 j1 k1 hk _ _ _
    rw [coalesceAux, if_pos hk]
  | cons m rest ih =>
    intro i1 j1 k1 hk hhead hchain hsz
    rw [coalesceAux, if_neg (fun hadj => hhead m rfl ⟨hadj.1, hadj.2⟩)]
    rw [if_pos hk]
    have heta : (⟨m.ai, m.bj, m.size⟩ : MatchBlock) = m := rfl
    have hrec := ih m.ai m.bj m.size (hsz m (List.mem_cons_self ..))
      (by rw [heta]; exact (List.chain'_cons'.mp hchain).1)
      (List.chain'_cons'.mp hchain).2
      (fun bl hbl => hsz bl (List.mem_cons_of_mem _ hbl))
    rw [hrec, heta]
    rfl

/-- Coalescing an adjacency-free block list of positive sizes is the
identity. -/
theorem coalesce0_noAbut (bs : List MatchBlock)
    (hchain : List.Chain' (fun m1 m2 => ¬ blocksAdj m1 m2) bs)
    (hsz : ∀ bl ∈ bs, 0 < bl.size) :
    coalesceAux 0 0 0 bs = bs := by
  cases bs with
  | nil => rw [coalesceAux, if_neg (by omega)]
  | cons m rest =>
    have hrec := coalesceAux_noAbut rest m.ai m.bj m.size
      (hsz m (List.mem_cons_self ..))
      (show ∀ y ∈ rest.head?, ¬ blocksAdj ⟨m.ai, m.bj, m.size⟩ y from
        (List.chain'_cons'.mp hchain).1)
      (List.chain'_cons'.mp hchain).2
      (fun bl hbl => hsz bl (List.mem_cons_of_mem _ hbl))
    have heta : (⟨m.ai, m.bj, m.size⟩ : MatchBlock) = m := rfl
    rw [coalesceAux]
    by_cases hadj : 0 + 0 = m.ai ∧ 0 + 0 = m.bj
    · rw [if_pos hadj]
      obtain ⟨ha, hb2⟩ := hadj
      have h1 : (0 : Nat) = m.ai := by omega
      have h2 : (0 : Nat) = m.bj := by omega
      have h3 : (0 : Nat) + m.size = m.size := by omega
      calc coalesceAux 0 0 (0 + m.size) rest
          = coalesceAux m.ai m.bj m.size rest := by rw [← h1, ← h2, h3]
        _ = m :: rest := by rw [hrec, heta]
    · rw [if_neg hadj, if_neg (by omega), List.nil_append, hrec, heta]

/-- C5 (amended): when the new sequence has fewer than 200 lines — so that
the `autojunk=True` popularity heuristic is inert — the opcodes of the
script's matcher coincide with the reference greedy alignment of the
specification (longest common run first, ties broken earliest-in-old then
earliest-in-new, leftovers classified replace/delete/insert). -/
theorem get_opcodes_eq_ref_of_short (a b : List α) (h : b.length < 200) :
    get_opcodes a b = refOpcodes a b := by
  unfold get_opcodes get_matching_blocks refOpcodes
  have hfind : ∀ alo ahi blo bhi : Nat,
      findWith (fun y => !isPopular b y) true a b alo ahi blo bhi =
        findWith (fun _ => true) false a b alo ahi blo bhi := by
    intro alo ahi blo bhi
    have hgood : (fun y => !isPopular b y) = (fun _ : α => true) := by
      funext y
      rw [isPopular_short b h y]
      rfl
    rw [hgood]
    exact findWith_true_ext a b alo ahi blo bhi
  rw [alignBlocks_congr_find (fun y => !isPopular b y) (fun _ => true) true false
        a b hfind (a.length + b.length) 0 a.length 0 b.length (by omega)]
  rw [coalesce0_noAbut _
        (alignBlocks_ref_noAbut a b (a.length + b.length) 0 a.length 0 b.length
          (by omega))
        (fun bl hbl => (blocksMono_mem _ 0 0
          (alignBlocks_mono (fun _ => true) false a b (a.length + b.length)
            0 a.length 0 b.length (by omega)) bl hbl).2.2.2.2)]
  exact walk_align_ref a b (a.length + b.length) 0 a.length 0 b.length (by omega)

theorem lexLT_irrefl (p : Nat × Nat) : ¬ lexLT p p := by
  unfold lexLT
  omega

theorem lexLT_asymm {p q : Nat × Nat} (h : lexLT p q) : ¬ lexLT q p := by
  unfold lexLT at h ⊢
  omega

/-- If the scan changes the accumulator at all, it strictly increases its
size. -/
theorem scanGo_ne (good : α → Bool) (a b : List α) (ahi bhi : Nat) :
    ∀ (l : List (Nat × Nat)) (init : MatchBlock),
      scanGo good a b ahi bhi l init ≠ init →
      init.size < (scanGo good a b ahi bhi l init).size := by
  intro l
  induction l with
  | nil => intro init h; exact absurd rfl h
  | cons q rest ih =>
    intro init h
    rw [scanGo] at h ⊢
    by_cases hc : init.size < coreRun good a b ahi bhi q.1 q.2
    · rw [if_pos hc] at h ⊢
      have := scanGo_size_le good a b ahi bhi rest
        (⟨q.1, q.2, coreRun good a b ahi bhi q.1 q.2⟩ : MatchBlock)
      dsimp only at this
      omega
    · rw [if_neg hc] at h ⊢
      exact ih init h

/-- Any candidate lexicographically before the winner has a strictly
shorter run: the scan keeps the earliest maximal candidate. -/
theorem scanGo_lexmin (good : α → Bool) (a b : List α) (ahi bhi : Nat) :
    ∀ (l : List (Nat × Nat)) (init : MatchBlock),
      List.Pairwise lexLT l →
      (∀ q ∈ l, ¬ lexLT q (init.ai, init.bj)) →
      ∀ q ∈ l, lexLT q ((scanGo good a b ahi bhi l init).ai,
          (scanGo good a b ahi bhi l init).bj) →
        coreRun good a b ahi bhi q.1 q.2 <
          (scanGo good a b ahi bhi l init).size := by
  intro l
  induction l with
  | nil => intro init _ _ q hq; cases hq
  | cons c rest ih =>
    intro init hsort hinit q hq hlt
    rw [scanGo] at hlt ⊢
    by_cases hc : init.size < coreRun good a b ahi bhi c.1 c.2
    · rw [if_pos hc] at hlt ⊢
      rcases List.mem_cons.mp hq with rfl | hq'
      · by_cases heq : scanGo good a b ahi bhi rest
            ⟨q.1, q.2, coreRun good a b ahi bhi q.1 q.2⟩ =
            ⟨q.1, q.2, coreRun good a b ahi bhi q.1 q.2⟩
        · rw [heq] at hlt
          exact absurd hlt (lexLT_irrefl q)
        · have := scanGo_ne good a b ahi bhi rest _ heq
          dsimp only at this
          omega
      · refine ih ⟨c.1, c.2, coreRun good a b ahi bhi c.1 c.2⟩
          (List.pairwise_cons.mp hsort).2 ?_ q hq' hlt
        intro p hp
        exact lexLT_asymm ((List.pairwise_cons.mp hsort).1 p hp)
    · rw [if_neg hc] at hlt ⊢
      rcases List.mem_cons.mp hq with rfl | hq'
      · by_cases heq : scanGo good a b ahi bhi rest init = init
        · rw [heq] at hlt
          exact absurd hlt (hinit q (List.mem_cons_self ..))
        · have := scanGo_ne good a b ahi bhi rest init heq
          omega
      · exact ih init (List.pairwise_cons.mp hsort).2
          (fun p hp => hinit p (List.mem_cons_of_mem _ hp)) q hq' hlt

/-- The candidates are scanned in strictly increasing lexicographic
order. -/
theorem candIdx_sorted (alo ahi blo bhi : Nat) :
    List.Pairwise lexLT (candIdx alo ahi blo bhi) := by
  unfold candIdx
  rw [List.pairwise_flatMap]
  constructor
  · intro i _
    rw [List.pairwise_map]
    refine List.Pairwise.imp ?_ (List.pairwise_lt_range' blo (bhi - blo))
    intro x y hxy
    exact Or.inr ⟨rfl, hxy⟩
  · refine List.Pairwise.imp ?_ (List.pairwise_lt_range' alo (ahi - alo))
    intro x y hxy p hp q hq
    simp only [List.mem_map] at hp hq
    obtain ⟨j1, _, rfl⟩ := hp
    obtain ⟨j2, _, rfl⟩ := hq
    exact Or.inl hxy

/-! ## On identical sequences the matcher finds one all-covering block -/

theorem eqAt_refl_of_lt (b : List α) (x : Nat) (hx : x < b.length) :
    eqAt b b x x = true := by
  unfold eqAt
  cases h : b.get? x with
  | none =>
    rw [List.get?_eq_none] at h
    omega
  | some v => simp

theorem eqAt_lt_length (a b : List α) (i j : Nat) (h : eqAt a b i j = true) :
    i < a.length ∧ j < b.length := by
  unfold eqAt at h
  cases hi : a.get? i with
  | none => rw [hi] at h; cases hj : b.get? j <;> rw [hj] at h <;> cases h
  | some x =>
    cases hj : b.get? j with
    | none => rw [hi, hj] at h; cases h
    | some y =>
      constructor
      · by_contra hc
        rw [List.get?_eq_none.mpr (by omega)] at hi
        cases hi
      · by_contra hc
        rw [List.get?_eq_none.mpr (by omega)] at hj
        cases hj

/-- On identical sequences, `good` transfers along a match because
popularity (or any other property) is a property of the value. -/
theorem goodAt_transfer (good : α → Bool) (b : List α) (i j : Nat)
    (hij : eqAt b b i j = true) (hg : goodAt good b j = true) :
    goodAt good b i = true := by
  unfold eqAt at hij
  unfold goodAt at hg ⊢
  cases hi : b.get? i with
  | none => rw [hi] at hij; cases hj : b.get? j <;> rw [hj] at hij <;> cases hij
  | some x =>
    cases hj : b.get? j with
    | none => rw [hi, hj] at hij; cases hij
    | some y =>
      rw [hi, hj] at hij
      rw [hj] at hg
      have hxy : x = y := by simpa using hij
      subst hxy
      simpa using hg

/-- On identical sequences any run is dominated by the diagonal run at the
earlier of its two start positions. -/
theorem coreRun_diag_ge (good : α → Bool) (b : List α) (hi : Nat) (i j : Nat) :
    coreRun good b b hi hi i j ≤
      coreRun good b b hi hi (min i j) (min i j) := by
  refine coreRun_ge good b b hi hi _ (min i j) (min i j) ?_
  intro t ht
  have hc := coreRun_char good b b hi hi i j t ht
  obtain ⟨h1, h2, h3, h4⟩ := hc
  have hlen := eqAt_lt_length b b (i + t) (j + t) h3
  refine ⟨by omega, by omega, eqAt_refl_of_lt b (min i j + t) (by omega), ?_⟩
  rcases Nat.le_total i j with hle | hle
  · rw [Nat.min_eq_left hle]
    exact goodAt_transfer good b (i + t) (j + t) h3 h4
  · rw [Nat.min_eq_right hle]
    exact h4

/-- On identical sequences the scan winner lies on the diagonal. -/
theorem scanBest_diag (good : α → Bool) (b : List α) (lo hi : Nat) :
    (scanBest good b b lo hi lo hi).ai = (scanBest good b b lo hi lo hi).bj := by
  rcases scanGo_attained good b b hi hi (candIdx lo hi lo hi) ⟨lo, lo, 0⟩
      with h | ⟨p, hp, h⟩
  · rw [scanBest, h]
  · by_cases hdiag : p.1 = p.2
    · rw [scanBest, h]
      exact hdiag
    · exfalso
      have hb := candIdx_mem.mp hp
      have hscan : scanBest good b b lo hi lo hi =
          ⟨p.1, p.2, coreRun good b b hi hi p.1 p.2⟩ := h
      have hmem : ((min p.1 p.2, min p.1 p.2) : Nat × Nat) ∈ candIdx lo hi lo hi :=
        candIdx_mem.mpr ⟨by omega, by omega, by omega, by omega⟩
      have hlt : lexLT (min p.1 p.2, min p.1 p.2)
          ((scanBest good b b lo hi lo hi).ai,
           (scanBest good b b lo hi lo hi).bj) := by
        rw [hscan]
        unfold lexLT
        dsimp only
        omega
      have hmin' : coreRun good b b hi hi (min p.1 p.2) (min p.1 p.2) <
          (scanBest good b b lo hi lo hi).size :=
        scanGo_lexmin good b b hi hi (candIdx lo hi lo hi)
          ⟨lo, lo, 0⟩ (candIdx_sorted lo hi lo hi)
          (fun q hq => by
            have := candIdx_mem.mp hq
            unfold lexLT
            dsimp only
            omega)
          (min p.1 p.2, min p.1 p.2) hmem hlt
      rw [hscan] at hmin'
      dsimp only at hmin'
      have := coreRun_diag_ge good b hi p.1 p.2
      omega

/-- A diagonal block extends leftwards all the way to the region's start. -/
theorem extendLeft_diag (b : List α) (lo : Nat) :
    ∀ (d s : Nat), lo ≤ d → d ≤ b.length →
      extendLeft b b lo lo ⟨d, d, s⟩ = ⟨lo, lo, s + (d - lo)⟩ := by
  intro d
  induction d with
  | zero =>
    intro s h1 h2
    rw [extendLeft_eq, if_neg (by dsimp only; omega)]
    have h0 : lo = 0 := by omega
    subst h0
    rfl
  | succ n ih =>
    intro s h1 h2
    by_cases hlo : lo = n + 1
    · subst hlo
      rw [extendLeft_eq, if_neg (by dsimp only; omega)]
      have : n + 1 - (n + 1) = 0 := by omega
      rw [this]
      rfl
    · rw [extendLeft_eq, if_pos]
      · have := ih (s + 1) (by omega) (by omega)
        dsimp only at this ⊢
        have e1 : n + 1 - 1 = n := by omega
        rw [e1]
        rw [this]
        have e2 : s + 1 + (n - lo) = s + (n + 1 - lo) := by omega
        rw [e2]
      · refine ⟨by dsimp only; omega, by dsimp only; omega, ?_⟩
        dsimp only
        exact eqAt_refl_of_lt b (n + 1 - 1) (by omega)

/-- A diagonal block at the region's start extends rightwards to the
region's end. -/
theorem extendRight_diag (b : List α) (lo hi : Nat) (hhi : hi ≤ b.length) :
    ∀ (k s : Nat), hi - (lo + s) = k → lo + s ≤ hi →
      extendRight b b hi hi ⟨lo, lo, s⟩ = ⟨lo, lo, hi - lo⟩ := by
  intro k
  induction k with
  | zero =>
    intro s hk hle
    rw [extendRight_eq, if_neg (by dsimp only; omega)]
    have : s = hi - lo := by omega
    rw [this]
  | succ n ih =>
    intro s hk hle
    rw [extendRight_eq, if_pos]
    · dsimp only
      exact ih (s + 1) (by omega) (by omega)
    · refine ⟨by dsimp only; omega, by dsimp only; omega, ?_⟩
      dsimp only
      exact eqAt_refl_of_lt b (lo + s) (by omega)

/-- On identical sequences the full search returns the single block
covering everything. -/
theorem find_longest_match_self (b : List α) :
    find_longest_match b b 0 b.length 0 b.length = ⟨0, 0, b.length⟩ := by
  unfold find_longest_match
  have hrep : findWith (fun y => !isPopular b y) true b b 0 b.length 0 b.length =
      extendRight b b b.length b.length (extendLeft b b 0 0
        (scanBest (fun y => !isPopular b y) b b 0 b.length 0 b.length)) := rfl
  rw [hrep]
  have hdiag := scanBest_diag (fun y => !isPopular b y) b 0 b.length
  rcases scanGo_attained (fun y => !isPopular b y) b b b.length b.length
      (candIdx 0 b.length 0 b.length) ⟨0, 0, 0⟩ with h | ⟨p, hp, h⟩
  · have hscan : scanBest (fun y => !isPopular b y) b b 0 b.length 0 b.length =
        ⟨0, 0, 0⟩ := h
    rw [hscan]
    rw [extendLeft_diag b 0 0 0 (by omega) (by omega)]
    rw [extendRight_diag b 0 b.length (Nat.le_refl _) (b.length - 0) 0
      (by omega) (by omega)]
    have h0 : b.length - 0 = b.length := by omega
    rw [h0]
  · obtain ⟨p1, p2⟩ := p
    have hscan : scanBest (fun y => !isPopular b y) b b 0 b.length 0 b.length =
        ⟨p1, p2, coreRun (fun y => !isPopular b y) b b b.length b.length p1 p2⟩ := h
    have hb := candIdx_mem.mp hp
    dsimp only at hb
    have hpp : p1 = p2 := by
      rw [hscan] at hdiag
      exact hdiag
    subst hpp
    have hle := coreRun_le_left (fun y => !isPopular b y) b b b.length b.length p1 p1
    rw [hscan]
    rw [extendLeft_diag b 0 p1
      (coreRun (fun y => !isPopular b y) b b b.length b.length p1 p1)
      (by omega) (by omega)]
    rw [extendRight_diag b 0 b.length (Nat.le_refl _)
      (b.length - (0 + (coreRun (fun y => !isPopular b y) b b b.length b.length p1 p1 +
        (p1 - 0)))) _ rfl (by omega)]
    have h0 : b.length - 0 = b.length := by omega
    rw [h0]

/-- On identical sequences `get_opcodes` is a single equal opcode (or
nothing for the empty sequence). -/
theorem get_opcodes_self (b : List α) :
    get_opcodes b b =
      if b.length = 0 then [] else [⟨.equal, 0, b.length, 0, b.length⟩] := by
  unfold get_opcodes get_matching_blocks
  have hfind : findWith (fun y => !isPopular b y) true b b 0 b.length 0 b.length =
      ⟨0, 0, b.length⟩ := find_longest_match_self b
  by_cases hn : b.length = 0
  · rw [if_pos hn]
    rw [alignBlocks_eq, hfind, if_neg (by dsimp only; omega)]
    rw [show coalesceAux 0 0 0 [] = [] from by rw [coalesceAux, if_neg (by omega)]]
    rw [List.nil_append, opcodesFromBlocks]
    rw [if_neg (by dsimp only; omega), if_neg (by dsimp only; omega),
      if_neg (by dsimp only; omega), if_neg (by dsimp only; omega)]
    rw [opcodesFromBlocks]
    rfl
  · rw [if_neg hn]
    rw [alignBlocks_eq, hfind, if_pos (by dsimp only; omega)]
    dsimp only
    rw [show alignBlocks (fun y => !isPopular b y) true b b 0 0 0 0 = [] from by
      rw [alignBlocks_eq]
      split
      · next hpos =>
        exfalso
        have hb := findWith_pos_bounds (fun y => !isPopular b y) true b b hpos
        omega
      · rfl]
    rw [show alignBlocks (fun y => !isPopular b y) true b b (0 + b.length) b.length
          (0 + b.length) b.length = [] from by
      rw [alignBlocks_eq]
      split
      · next hpos =>
        exfalso
        have hb := findWith_pos_bounds (fun y => !isPopular b y) true b b hpos
        omega
      · rfl]
    rw [List.nil_append]
    rw [show coalesceAux 0 0 0 [(⟨0, 0, b.length⟩ : MatchBlock)] =
        [(⟨0, 0, b.length⟩ : MatchBlock)] from by
      rw [coalesceAux, if_pos ⟨rfl, rfl⟩, coalesceAux,
        if_pos (by dsimp only; omega)]
      have h0 : (0 : Nat) + (⟨0, 0, b.length⟩ : MatchBlock).size = b.length := by
        dsimp only
        omega
      rw [h0]]
    rw [List.cons_append, List.nil_append, opcodesFromBlocks]
    rw [if_neg (by dsimp only; omega), if_neg (by dsimp only; omega),
      if_neg (by dsimp only; omega), if_pos (by dsimp only; omega)]
    rw [opcodesFromBlocks]
    rw [if_neg (by dsimp only; omega), if_neg (by dsimp only; omega),
      if_neg (by dsimp only; omega), if_neg (by dsimp only; omega)]
    rw [opcodesFromBlocks]
    simp

/-- A non-equal opcode outside the clean case emits exactly one block
item. -/
theorem opItems_block_length (ol nl : List String) (mb : Nat) (op : Opcode)
    (h : ¬ cleanCase ol nl op) : (opItems ol nl mb op).length = 1 := by
  unfold cleanCase at h
  unfold opItems
  dsimp only
  rw [if_neg h]
  split
  · rfl
  · split
    · rfl
    · rfl

/-- The loop of `build_change_report` on opcodes that all take the block
path: items accumulate until the count reaches `maxItems`, at which point
one truncation marker is appended and the remaining opcodes are ignored;
if the budget is never reached every non-equal opcode contributes its
item. -/
theorem buildItemsAux_blocky (ol nl : List String) (mi mb : Nat) :
    ∀ (ops : List Opcode) (acc : List String),
      (∀ op ∈ ops, op.tag ≠ Tag.equal → ¬ cleanCase ol nl op) →
      acc.length < mi →
      buildItemsAux ol nl mi mb ops acc =
        if (nonEqualOps ops).length < mi - acc.length then
          acc ++ (nonEqualOps ops).flatMap (opItems ol nl mb)
        else
          acc ++ ((nonEqualOps ops).take (mi - acc.length)).flatMap
              (opItems ol nl mb) ++ [truncationMarker] := by
  intro ops
  induction ops with
  | nil =>
    intro acc _ hacc
    rw [buildItemsAux]
    rw [if_pos (by unfold nonEqualOps; simp; omega)]
    simp [nonEqualOps]
  | cons op rest ih =>
    intro acc hblocky hacc
    by_cases heq : op.tag = Tag.equal
    · rw [buildItemsAux, if_pos heq]
      rw [ih acc (fun q hq h => hblocky q (List.mem_cons_of_mem _ hq) h) hacc]
      have hfe : nonEqualOps (op :: rest) = nonEqualOps rest := by
        unfold nonEqualOps
        rw [List.filter_cons_of_neg (by simp [heq])]
      rw [hfe]
    · have hclean := hblocky op (List.mem_cons_self ..) heq
      have hfe : nonEqualOps (op :: rest) = op :: nonEqualOps rest := by
        unfold nonEqualOps
        rw [List.filter_cons_of_pos (by simp [heq])]
      have hlen := opItems_block_length ol nl mb op hclean
      rw [buildItemsAux, if_neg heq, if_neg (fun hc => hclean ⟨hc.1, hc.2.1, hc.2.2⟩)]
      have hacclen : (acc ++ opItems ol nl mb op).length = acc.length + 1 := by
        rw [List.length_append, hlen]
      by_cases hstop : mi ≤ (acc ++ opItems ol nl mb op).length
      · rw [if_pos hstop]
        rw [hfe]
        rw [if_neg (by simp; omega)]
        have hr : mi - acc.length = 1 := by
          rw [List.length_append] at hstop
          omega
        rw [hr]
        rw [show (op :: nonEqualOps rest).take 1 = [op] from rfl]
        simp
      · rw [if_neg hstop]
        rw [List.length_append] at hstop
        rw [ih (acc ++ opItems ol nl mb op)
          (fun q hq h => hblocky q (List.mem_cons_of_mem _ hq) h)
          (by rw [List.length_append]; omega)]
        rw [hfe]
        rw [List.length_append, hlen]
        have hcond : ((op :: nonEqualOps rest).length < mi - acc.length) ↔
            ((nonEqualOps rest).length < mi - (acc.length + 1)) := by
          simp
          omega
        by_cases hc2 : (nonEqualOps rest).length < mi - (acc.length + 1)
        · rw [if_pos hc2, if_pos (by simp; omega)]
          simp
        · rw [if_neg hc2, if_neg (by simp; omega)]
          have htake : (op :: nonEqualOps rest).take (mi - acc.length) =
              op :: (nonEqualOps rest).take (mi - (acc.length + 1)) := by
            have : mi - acc.length = (mi - (acc.length + 1)) + 1 := by omega
            rw [this]
            rfl
          rw [htake]
          simp

theorem flatMap_len_one {α β : Type} (f : α → List β) :
    ∀ l : List α, (∀ a ∈ l, (f a).length = 1) → (l.flatMap f).length = l.length := by
  intro l
  induction l with
  | nil => intro _; rfl
  | cons a t ih =>
    intro h
    have h1 := h a (List.mem_cons_self ..)
    have h2 := ih (fun b hb => h b (List.mem_cons_of_mem _ hb))
    simp [h1, h2, Nat.add_comm]

theorem strAppend_assoc (a b c : String) : a ++ b ++ c = a ++ (b ++ c) := by
  cases a with
  | mk da =>
    cases b with
    | mk db =>
      cases c with
      | mk dc =>
        show String.mk ((da ++ db) ++ dc) = String.mk (da ++ (db ++ dc))
        rw [List.append_assoc]

/-- C2 (amended): per non-equal opcode the builder emits a clean one-line
item `"• <context>: <old> → <new>"` (or `"• <old> → <new>"` with empty
context) when the tag is replace, both slices have exactly one line and the
stripped lines differ; it emits NO item when they are a single-line replace
whose stripped lines agree; in every other case it emits exactly one block
item with header `"• Near: <context>"` (or `"• Change"`) and
Added/Removed/Before-After sections rendered by `clip_block` and
indentation. -/
theorem opItems_spec (ol nl : List String) (mb : Nat) (op : Opcode)
    (hne : op.tag ≠ Tag.equal) :
    (cleanCase ol nl op ∧
        pyStrip ((slice ol op.i1 op.i2).headD "") ≠
          pyStrip ((slice nl op.j1 op.j2).headD "") →
      opItems ol nl mb op =
        [if opContext ol nl op ≠ "" then
           "• " ++ opContext ol nl op ++ ": " ++
             pyStrip ((slice ol op.i1 op.i2).headD "") ++ " → " ++
             pyStrip ((slice nl op.j1 op.j2).headD "")
         else
           "• " ++ pyStrip ((slice ol op.i1 op.i2).headD "") ++ " → " ++
             pyStrip ((slice nl op.j1 op.j2).headD "")]) ∧
    (cleanCase ol nl op ∧
        pyStrip ((slice ol op.i1 op.i2).headD "") =
          pyStrip ((slice nl op.j1 op.j2).headD "") →
      opItems ol nl mb op = []) ∧
    (¬ cleanCase ol nl op →
      opItems ol nl mb op =
        [(if opContext ol nl op ≠ "" then "• Near: " ++ opContext ol nl op
            else "• Change") ++
          (if op.tag = Tag.insert then
             "\n  Added:\n  " ++ indentNl (clip_block (slice nl op.j1 op.j2) mb)
           else if op.tag = Tag.delete then
             "\n  Removed:\n  " ++ indentNl (clip_block (slice ol op.i1 op.i2) mb)
           else
             "\n  Before:\n  " ++ indentNl (clip_block (slice ol op.i1 op.i2) mb) ++
               "\n  After:\n  " ++ indentNl (clip_block (slice nl op.j1 op.j2) mb))]) := by
  unfold cleanCase
  unfold opItems
  dsimp only
  refine ⟨?_, ?_, ?_⟩
  · rintro ⟨hc, hd⟩
    rw [if_pos hc, if_pos hd]
    by_cases hctx : opContext ol nl op ≠ ""
    · rw [if_pos hctx, if_pos hctx]
    · rw [if_neg hctx, if_neg hctx]
  · rintro ⟨hc, hd⟩
    rw [if_pos hc, if_neg (fun h => h hd)]
  · intro hc
    rw [if_neg hc]
    by_cases hins : op.tag = Tag.insert
    · rw [if_pos hins, if_pos hins]
      simp [strAppend_assoc]
    · rw [if_neg hins, if_neg hins]
      by_cases hdel : op.tag = Tag.delete
      · rw [if_pos hdel, if_pos hdel]
        simp [strAppend_assoc]
      · rw [if_neg hdel, if_neg hdel]
        simp [strAppend_assoc]

/-- Witness for C2 (amended): a concrete clean single-line replacement
emits exactly the clean arrow item. -/
theorem opItems_spec_witness :
    opItems ["x"] ["y"] 6 ⟨Tag.replace, 0, 1, 0, 1⟩ = ["• x → y"] := by
  have h := (opItems_spec ["x"] ["y"] 6 ⟨Tag.replace, 0, 1, 0, 1⟩ (by decide)).1
    (by constructor
        · decide
        · decide)
  rw [h]
  decide

/-- C2 (counterexample): the opcode walk of `[" x"]` against `["x "]`
consists of one replace opcode, yet the builder emits no item for it — the
stripped sides agree, so the claimed "exactly one item per non-equal
opcode" fails. -/
theorem opItems_trimmed_equal_silent :
    get_opcodes [" x"] ["x "] = [⟨Tag.replace, 0, 1, 0, 1⟩] ∧
    (⟨Tag.replace, 0, 1, 0, 1⟩ : Opcode).tag ≠ Tag.equal ∧
    opItems [" x"] ["x "] 6 ⟨Tag.replace, 0, 1, 0, 1⟩ = [] ∧
    buildItems " x" "x " 25 6 = [] := by
  refine ⟨by decide, by decide, by decide, by decide⟩

/-- The positive-budget case of the truncation law. -/
theorem buildItems_truncation_pos (old new : String) (mi mb : Nat)
    (hmi : 0 < mi)
    (hblocky : ∀ op ∈ get_opcodes (splitlines old) (splitlines new),
        op.tag ≠ Tag.equal → ¬ cleanCase (splitlines old) (splitlines new) op)
    (hcount : mi ≤ (nonEqualOps (get_opcodes (splitlines old) (splitlines new))).length) :
    buildItems old new mi mb =
      ((nonEqualOps (get_opcodes (splitlines old) (splitlines new))).take mi).flatMap
        (opItems (splitlines old) (splitlines new) mb) ++ [truncationMarker] ∧
    (buildItems old new mi mb).length = mi + 1 := by
  have key : buildItems old new mi mb =
      ((nonEqualOps (get_opcodes (splitlines old) (splitlines new))).take mi).flatMap
        (opItems (splitlines old) (splitlines new) mb) ++ [truncationMarker] := by
    unfold buildItems
    rw [buildItemsAux_blocky (splitlines old) (splitlines new) mi mb
      (get_opcodes (splitlines old) (splitlines new)) [] hblocky (by simpa using hmi)]
    rw [if_neg (by simp; omega)]
    simp
  refine ⟨key, ?_⟩
  have hall : ∀ op ∈ (nonEqualOps (get_opcodes (splitlines old) (splitlines new))).take mi,
      (opItems (splitlines old) (splitlines new) mb op).length = 1 := by
    intro op hop
    have hmem := List.take_subset _ _ hop
    have h2 := List.mem_filter.mp hmem
    exact opItems_block_length _ _ _ _
      (hblocky op h2.1 (of_decide_eq_true h2.2))
  rw [key, List.length_append, flatMap_len_one _ _ hall, List.length_take,
    Nat.min_eq_left hcount]
  rfl

/-- The zero-budget case: the loop appends the first block item before the
budget check ever fires, so one item plus the marker is emitted. -/
theorem buildItemsAux_zero (ol nl : List String) (mb : Nat) :
    ∀ (ops : List Opcode) (acc : List String),
      (∀ op ∈ ops, op.tag ≠ Tag.equal → ¬ cleanCase ol nl op) →
      nonEqualOps ops ≠ [] →
      buildItemsAux ol nl 0 mb ops acc =
        acc ++ ((nonEqualOps ops).take 1).flatMap (opItems ol nl mb) ++
          [truncationMarker] := by
  intro ops
  induction ops with
  | nil =>
    intro acc _ hne
    exact absurd rfl hne
  | cons op rest ih =>
    intro acc hblocky hne
    by_cases heq : op.tag = Tag.equal
    · have hfe : nonEqualOps (op :: rest) = nonEqualOps rest := by
        unfold nonEqualOps
        rw [List.filter_cons_of_neg (by simp [heq])]
      rw [buildItemsAux, if_pos heq]
      rw [ih acc (fun q hq h => hblocky q (List.mem_cons_of_mem _ hq) h)
        (by rw [hfe] at hne; exact hne)]
      rw [hfe]
    · have hclean := hblocky op (List.mem_cons_self ..) heq
      have hfe : nonEqualOps (op :: rest) = op :: nonEqualOps rest := by
        unfold nonEqualOps
        rw [List.filter_cons_of_pos (by simp [heq])]
      rw [buildItemsAux, if_neg heq, if_neg (fun hc => hclean ⟨hc.1, hc.2.1, hc.2.2⟩)]
      rw [if_pos (Nat.zero_le _)]
      rw [hfe]
      rw [show (op :: nonEqualOps rest).take 1 = [op] from rfl]
      simp

/-- C1 (amended): when every non-equal opcode takes the block path (none is
a clean single-line replacement) and at least `max maxItems 1` of them
exist, the item list is exactly the items of the first `max maxItems 1`
non-equal opcodes followed by one truncation marker —
`max maxItems 1 + 1` entries in all — and the remaining opcodes contribute
nothing.  With `maxItems ≥ 1` that is exactly `maxItems` items; with
`maxItems = 0` the loop still appends the first block item before the
budget check fires, so one item plus the marker is emitted.  (The unamended
claim fails because clean single-line replacements bypass the budget
check.) -/
theorem buildItems_truncation (old new : String) (mi mb : Nat)
    (hblocky : ∀ op ∈ get_opcodes (splitlines old) (splitlines new),
        op.tag ≠ Tag.equal → ¬ cleanCase (splitlines old) (splitlines new) op)
    (hcount : max mi 1 ≤
      (nonEqualOps (get_opcodes (splitlines old) (splitlines new))).length) :
    buildItems old new mi mb =
      ((nonEqualOps (get_opcodes (splitlines old) (splitlines new))).take
          (max mi 1)).flatMap
        (opItems (splitlines old) (splitlines new) mb) ++ [truncationMarker] ∧
    (buildItems old new mi mb).length = max mi 1 + 1 := by
  by_cases hmi : 0 < mi
  · have hmax : max mi 1 = mi := by omega
    rw [hmax] at hcount ⊢
    exact buildItems_truncation_pos old new mi mb hmi hblocky hcount
  · have hmi0 : mi = 0 := by omega
    subst hmi0
    have hmax : max 0 1 = 1 := rfl
    rw [hmax] at hcount ⊢
    have hne : nonEqualOps (get_opcodes (splitlines old) (splitlines new)) ≠ [] := by
      intro h0
      rw [h0] at hcount
      simp at hcount
    have key : buildItems old new 0 mb =
        ((nonEqualOps (get_opcodes (splitlines old) (splitlines new))).take 1).flatMap
          (opItems (splitlines old) (splitlines new) mb) ++ [truncationMarker] := by
      unfold buildItems
      rw [buildItemsAux_zero (splitlines old) (splitlines new) mb
        (get_opcodes (splitlines old) (splitlines new)) [] hblocky hne]
      simp
    refine ⟨key, ?_⟩
    have hall : ∀ op ∈ (nonEqualOps (get_opcodes (splitlines old)
          (splitlines new))).take 1,
        (opItems (splitlines old) (splitlines new) mb op).length = 1 := by
      intro op hop
      have hmem := List.take_subset _ _ hop
      have h2 := List.mem_filter.mp hmem
      exact opItems_block_length _ _ _ _
        (hblocky op h2.1 (of_decide_eq_true h2.2))
    rw [key, List.length_append, flatMap_len_one _ _ hall, List.length_take,
      Nat.min_eq_left hcount]
    rfl

/-- Witness for C1 (amended): three block-path deletions against a budget
of two yield the first two items plus one marker. -/
theorem buildItems_truncation_witness :
    buildItems "a\nx\nb\ny\nc\nz" "a\nb\nc" 2 6 =
      ((nonEqualOps (get_opcodes (splitlines "a\nx\nb\ny\nc\nz")
          (splitlines "a\nb\nc"))).take (max 2 1)).flatMap
        (opItems (splitlines "a\nx\nb\ny\nc\nz") (splitlines "a\nb\nc") 6) ++
        [truncationMarker] ∧
    (buildItems "a\nx\nb\ny\nc\nz" "a\nb\nc" 2 6).length = max 2 1 + 1 :=
  buildItems_truncation "a\nx\nb\ny\nc\nz" "a\nb\nc" 2 6 (by decide) (by decide)

/-- C1 (counterexample): with a budget of one item, two clean single-line
replacements both get emitted and no truncation marker ever appears — the
clean path `continue`s past the budget check, so the claimed
"exactly `max_items` items plus one marker" fails. -/
theorem buildItems_cap_bypass_on_clean_items :
    1 < (nonEqualOps (get_opcodes (splitlines "a\nx\nb\ny")
        (splitlines "a\nX2\nb\nY2"))).length ∧
    buildItems "a\nx\nb\ny" "a\nX2\nb\nY2" 1 6 = ["• a: x → X2", "• b: y → Y2"] ∧
    truncationMarker ∉ buildItems "a\nx\nb\ny" "a\nX2\nb\nY2" 1 6 := by
  refine ⟨by decide, by decide, by decide⟩

/-! ## On identical texts: no items, empty diff, `changed = false` -/

/-- The item loop ignores equal opcodes entirely. -/
theorem buildItemsAux_all_equal (ol nl : List String) (mi mb : Nat) :
    ∀ (ops : List Opcode) (acc : List String),
      (∀ op ∈ ops, op.tag = Tag.equal) →
      buildItemsAux ol nl mi mb ops acc = acc := by
  intro ops
  induction ops with
  | nil => intro acc _; rfl
  | cons op rest ih =>
    intro acc h
    rw [buildItemsAux, if_pos (h op (List.mem_cons_self ..))]
    exact ih acc (fun q hq => h q (List.mem_cons_of_mem _ hq))

/-- On identical texts the report is the fixed no-changes sentence and the
fixed brief. -/
theorem build_change_report_self (t : String) (mi mb : Nat) :
    build_change_report t t mi mb =
      ("No visible text changes detected.", "No changes") := by
  unfold build_change_report buildItems
  rw [buildItemsAux_all_equal]
  · rfl
  · intro op hop
    rw [get_opcodes_self (splitlines t)] at hop
    split at hop
    · cases hop
    · rcases List.mem_singleton.mp hop with rfl
      rfl

/-- A single equal opcode whose range does not exceed twice the context
width produces no groups. -/
theorem groupLoop_single_equal (n : Nat) (c : Opcode) (hc : c.tag = Tag.equal)
    (hw : ¬ 2 * n < c.i2 - c.i1) : groupLoop n [c] [] = [] := by
  rw [groupLoop, if_neg (fun h => hw h.2)]
  simp only [List.nil_append]
  rw [groupLoop]
  rw [if_pos hc]

/-- On identical line sequences the grouping produces no groups: a lone
equal opcode (or the placeholder) is trimmed by the fixups and dropped as a
single-equal group. -/
theorem get_grouped_opcodes_self (b : List α) :
    get_grouped_opcodes 3 b b = [] := by
  unfold get_grouped_opcodes
  rw [get_opcodes_self b]
  dsimp only
  by_cases hn : b.length = 0
  · rw [if_pos hn]
    rfl
  · rw [if_neg hn]
    rw [if_neg (by simp)]
    rw [show fixupFirst 3 [(⟨Tag.equal, 0, b.length, 0, b.length⟩ : Opcode)] =
        [(⟨Tag.equal, max 0 (b.length - 3), b.length, max 0 (b.length - 3),
          b.length⟩ : Opcode)] from rfl]
    rw [show fixupLast 3 [(⟨Tag.equal, max 0 (b.length - 3), b.length,
          max 0 (b.length - 3), b.length⟩ : Opcode)] =
        [(⟨Tag.equal, max 0 (b.length - 3),
          min b.length (max 0 (b.length - 3) + 3), max 0 (b.length - 3),
          min b.length (max 0 (b.length - 3) + 3)⟩ : Opcode)] from rfl]
    exact groupLoop_single_equal 3 _ rfl (by dsimp only; omega)

/-- On identical texts the unified diff is empty. -/
theorem make_unified_diff_self (t : String) :
    make_unified_diff t t = [] := by
  unfold make_unified_diff
  dsimp only
  rw [get_grouped_opcodes_self]
  rfl

/-- C7: on identical stored and fresh text (with a matching stored digest)
the computation reports no change: `changed = false`, zero diff statistics,
the fixed no-changes report sentence and the fixed "No changes" brief. -/
theorem runMain_self (hash : String → String) (oldHashFile t : String)
    (mi mb : Nat) (hh : pyStrip oldHashFile = hash t) :
    (runMain hash oldHashFile t t mi mb).changed = false ∧
      (runMain hash oldHashFile t t mi mb).added = 0 ∧
      (runMain hash oldHashFile t t mi mb).removed = 0 ∧
      (runMain hash oldHashFile t t mi mb).changeReport =
        "No visible text changes detected." ∧
      (runMain hash oldHashFile t t mi mb).changeBrief = "No changes" := by
  unfold runMain
  dsimp only
  rw [make_unified_diff_self, build_change_report_self, hh]
  refine ⟨?_, rfl, rfl, rfl, rfl⟩
  simp

/-! ## `diff_summary` over the rendered diff: per-line analysis -/

theorem sw_plus_hdr (l : String) :
    pyStartsWith ("+" ++ l) "+++ " = pyStartsWith l "++ " := rfl

theorem sw_plus_minushdr (l : String) :
    pyStartsWith ("+" ++ l) "--- " = false := rfl

theorem sw_plus_at (l : String) : pyStartsWith ("+" ++ l) "@@" = false := rfl

theorem sw_plus_plus (l : String) : pyStartsWith ("+" ++ l) "+" = true := by
  obtain ⟨d⟩ := l
  cases d <;> rfl

theorem sw_minus_hdr (l : String) :
    pyStartsWith ("-" ++ l) "--- " = pyStartsWith l "-- " := rfl

theorem sw_minus_plushdr (l : String) :
    pyStartsWith ("-" ++ l) "+++ " = false := rfl

theorem sw_minus_at (l : String) : pyStartsWith ("-" ++ l) "@@" = false := rfl

theorem sw_minus_plus (l : String) : pyStartsWith ("-" ++ l) "+" = false := rfl

theorem sw_minus_minus (l : String) : pyStartsWith ("-" ++ l) "-" = true := by
  obtain ⟨d⟩ := l
  cases d <;> rfl

theorem sw_space_plushdr (l : String) :
    pyStartsWith (" " ++ l) "+++ " = false := rfl

theorem sw_space_minushdr (l : String) :
    pyStartsWith (" " ++ l) "--- " = false := rfl

theorem sw_space_at (l : String) : pyStartsWith (" " ++ l) "@@" = false := rfl

theorem sw_space_plus (l : String) : pyStartsWith (" " ++ l) "+" = false := rfl

theorem sw_space_minus (l : String) : pyStartsWith (" " ++ l) "-" = false := rfl

theorem sw_at_at (x : String) : pyStartsWith ("@@ -" ++ x) "@@" = true := rfl

theorem sw_at_plushdr (x : String) :
    pyStartsWith ("@@ -" ++ x) "+++ " = false := rfl

theorem sw_at_minushdr (x : String) :
    pyStartsWith ("@@ -" ++ x) "--- " = false := rfl

theorem sumAddLine_plus (l : String) :
    sumAddLine ("+" ++ l) = !pyStartsWith l "++ " := by
  unfold sumAddLine
  rw [sw_plus_hdr, sw_plus_minushdr, sw_plus_at, sw_plus_plus]
  simp

theorem sumAddLine_minus (l : String) : sumAddLine ("-" ++ l) = false := by
  unfold sumAddLine
  rw [sw_minus_plus]
  simp

theorem sumAddLine_space (l : String) : sumAddLine (" " ++ l) = false := by
  unfold sumAddLine
  rw [sw_space_plus]
  simp

theorem sumAddLine_at (x : String) : sumAddLine ("@@ -" ++ x) = false := by
  unfold sumAddLine
  rw [sw_at_at]
  simp

theorem sumRemLine_plus (l : String) : sumRemLine ("+" ++ l) = false := by
  unfold sumRemLine
  rw [sw_plus_plus]
  simp

theorem sumRemLine_minus (l : String) :
    sumRemLine ("-" ++ l) = !pyStartsWith l "-- " := by
  unfold sumRemLine
  rw [sw_minus_hdr, sw_minus_plushdr, sw_minus_at, sw_minus_plus, sw_minus_minus]
  simp

theorem sumRemLine_space (l : String) : sumRemLine (" " ++ l) = false := by
  unfold sumRemLine
  rw [sw_space_plus, sw_space_minus]
  simp

theorem sumRemLine_at (x : String) : sumRemLine ("@@ -" ++ x) = false := by
  unfold sumRemLine
  rw [sw_at_at]
  simp

/-- `diff_summary` is the pair of per-line counts of its added test and its
removed test. -/
theorem diff_summary_eq_countP (lines : List String) :
    diff_summary lines =
      (List.countP sumAddLine lines, List.countP sumRemLine lines) := by
  have key : ∀ (ls : List String) (st : Nat × Nat),
      ls.foldl
        (fun st line =>
          if pyStartsWith line "+++ " ∨ pyStartsWith line "--- " ∨
              pyStartsWith line "@@" then st
          else if pyStartsWith line "+" then (st.1 + 1, st.2)
          else if pyStartsWith line "-" then (st.1, st.2 + 1)
          else st)
        st =
      (st.1 + List.countP sumAddLine ls, st.2 + List.countP sumRemLine ls) := by
    intro ls
    induction ls with
    | nil =>
      intro st
      simp
    | cons line rest ih =>
      intro st
      rw [List.foldl_cons]
      rw [ih]
      rw [List.countP_cons, List.countP_cons]
      by_cases hskip : pyStartsWith line "+++ " ∨ pyStartsWith line "--- " ∨
          pyStartsWith line "@@"
      · rw [if_pos hskip]
        have ha : sumAddLine line = false := by
          unfold sumAddLine
          rcases hskip with h | h | h <;> simp [h]
        have hr : sumRemLine line = false := by
          unfold sumRemLine
          rcases hskip with h | h | h <;> simp [h]
        rw [ha, hr]
        simp
      · rw [if_neg hskip]
        push_neg at hskip
        obtain ⟨h1, h2, h3⟩ := hskip
        simp only [Bool.not_eq_true] at h1 h2 h3
        by_cases hp : pyStartsWith line "+"
        · rw [if_pos hp]
          have ha : sumAddLine line = true := by
            unfold sumAddLine
            simp [h1, h2, h3, hp]
          have hr : sumRemLine line = false := by
            unfold sumRemLine
            simp [hp]
          rw [ha, hr]
          simp only [Prod.mk.injEq]
          constructor <;> simp <;> omega
        · rw [if_neg hp]
          simp only [Bool.not_eq_true] at hp
          by_cases hm : pyStartsWith line "-"
          · rw [if_pos hm]
            have ha : sumAddLine line = false := by
              unfold sumAddLine
              simp [hp]
            have hr : sumRemLine line = true := by
              unfold sumRemLine
              simp [h1, h2, h3, hp, hm]
            rw [ha, hr]
            simp only [Prod.mk.injEq]
            constructor <;> simp <;> omega
          · rw [if_neg hm]
            simp only [Bool.not_eq_true] at hm
            have ha : sumAddLine line = false := by
              unfold sumAddLine
              simp [hp]
            have hr : sumRemLine line = false := by
              unfold sumRemLine
              simp [hp, hm]
            rw [ha, hr]
            simp
  unfold diff_summary
  rw [key]
  simp

theorem countP_flatMap {α β : Type} (p : β → Bool) (f : α → List β) :
    ∀ l : List α,
      List.countP p (l.flatMap f) = (l.map (fun x => List.countP p (f x))).sum := by
  intro l
  induction l with
  | nil => rfl
  | cons x t ih => simp [List.countP_append, ih]

theorem sum_map_filter_eq {α : Type} (f : α → Nat) (p : α → Bool) :
    ∀ l : List α, (∀ x ∈ l, p x = false → f x = 0) →
      (((l.filter p).map f).sum = (l.map f).sum) := by
  intro l
  induction l with
  | nil => intro _; rfl
  | cons a t ih =>
    intro h
    by_cases hp : p a = true
    · rw [List.filter_cons_of_pos hp]
      simp [ih (fun x hx hpx => h x (List.mem_cons_of_mem _ hx) hpx)]
    · rw [List.filter_cons_of_neg hp]
      have h0 := h a (List.mem_cons_self ..) (by revert hp; cases p a <;> simp)
      simp [h0, ih (fun x hx hpx => h x (List.mem_cons_of_mem _ hx) hpx)]

theorem sum_map_flatten {α : Type} (f : α → Nat) :
    ∀ L : List (List α),
      ((L.flatten).map f).sum = (L.map (fun g => ((g.map f).sum))).sum := by
  intro L
  induction L with
  | nil => rfl
  | cons g T ih => simp [ih, Function.comp_def]

/-! ## Grouping preserves the non-equal opcodes -/

theorem nonEqualOps_append (l1 l2 : List Opcode) :
    nonEqualOps (l1 ++ l2) = nonEqualOps l1 ++ nonEqualOps l2 :=
  List.filter_append ..

theorem nonEqualOps_fixupFirst (n : Nat) (codes : List Opcode) :
    nonEqualOps (fixupFirst n codes) = nonEqualOps codes := by
  cases codes with
  | nil => rfl
  | cons c rest =>
    rw [fixupFirst]
    by_cases hc : c.tag = Tag.equal
    · rw [if_pos hc]
      unfold nonEqualOps
      rw [List.filter_cons_of_neg (by simp [hc]),
        List.filter_cons_of_neg (by simp [hc])]
    · rw [if_neg hc]

theorem nonEqualOps_fixupLast (n : Nat) (codes : List Opcode) :
    nonEqualOps (fixupLast n codes) = nonEqualOps codes := by
  unfold fixupLast
  cases hl : codes.getLast? with
  | none =>
    have : codes = [] := by
      cases codes with
      | nil => rfl
      | cons c rest => simp at hl
    rw [this]
  | some c =>
    have hne : codes ≠ [] := by
      intro h
      rw [h] at hl
      simp at hl
    have hc : c = codes.getLast hne := by
      have h2 := List.getLast?_eq_getLast codes hne
      rw [hl] at h2
      exact Option.some.inj h2
    subst hc
    conv_rhs => rw [← List.dropLast_append_getLast hne]
    rw [nonEqualOps_append, nonEqualOps_append]
    congr 1
    by_cases he : (codes.getLast hne).tag = Tag.equal
    · rw [if_pos he]
      unfold nonEqualOps
      rw [List.filter_cons_of_neg (by simp [he]),
        List.filter_cons_of_neg (by simp [he])]
    · rw [if_neg he]

theorem groupLoop_flat_nonEqual (n : Nat) :
    ∀ (codes group : List Opcode),
      nonEqualOps ((groupLoop n codes group).flatten) =
        nonEqualOps group ++ nonEqualOps codes := by
  intro codes
  induction codes with
  | nil =>
    intro group
    match group with
    | [] => rfl
    | [g] =>
      rw [groupLoop]
      by_cases he : g.tag = Tag.equal
      · rw [if_pos he]
        unfold nonEqualOps
        rw [List.filter_cons_of_neg (by simp [he])]
        rfl
      · rw [if_neg he]
        simp [nonEqualOps]
    | g1 :: g2 :: gs =>
      rw [groupLoop] <;> simp [nonEqualOps]
  | cons c rest ih =>
    intro group
    rw [groupLoop]
    by_cases hc : c.tag = Tag.equal ∧ 2 * n < c.i2 - c.i1
    · rw [if_pos hc]
      rw [List.flatten_cons, nonEqualOps_append, nonEqualOps_append, ih]
      have h1 : nonEqualOps [(⟨c.tag, c.i1, min c.i2 (c.i1 + n), c.j1,
          min c.j2 (c.j1 + n)⟩ : Opcode)] = [] := by
        unfold nonEqualOps
        rw [List.filter_cons_of_neg (by simp [hc.1])]
        rfl
      have h2 : nonEqualOps [(⟨c.tag, max c.i1 (c.i2 - n), c.i2,
          max c.j1 (c.j2 - n), c.j2⟩ : Opcode)] = [] := by
        unfold nonEqualOps
        rw [List.filter_cons_of_neg (by simp [hc.1])]
        rfl
      rw [h1, h2]
      have h3 : nonEqualOps (c :: rest) = nonEqualOps rest := by
        unfold nonEqualOps
        rw [List.filter_cons_of_neg (by simp [hc.1])]
      rw [h3]
      simp
    · rw [if_neg hc]
      rw [ih, nonEqualOps_append]
      by_cases he : c.tag = Tag.equal
      · have h3 : nonEqualOps (c :: rest) = nonEqualOps rest := by
          unfold nonEqualOps
          rw [List.filter_cons_of_neg (by simp [he])]
        have h4 : nonEqualOps [c] = [] := by
          unfold nonEqualOps
          rw [List.filter_cons_of_neg (by simp [he])]
          rfl
        rw [h3, h4]
        simp
      · have h3 : nonEqualOps (c :: rest) = c :: nonEqualOps rest := by
          unfold nonEqualOps
          rw [List.filter_cons_of_pos (by simp [he])]
        have h4 : nonEqualOps [c] = [c] := by
          unfold nonEqualOps
          rw [List.filter_cons_of_pos (by simp [he])]
          rfl
        rw [h3, h4]
        simp

/-- Grouping trims and groups the equal opcodes but leaves the non-equal
opcodes of the walk exactly as they are, in order. -/
theorem grouped_nonEqual {α : Type} [DecidableEq α] (n : Nat) (a b : List α) :
    nonEqualOps ((get_grouped_opcodes n a b).flatten) =
      nonEqualOps (get_opcodes a b) := by
  unfold get_grouped_opcodes
  dsimp only
  by_cases hemp : (get_opcodes a b).isEmpty
  · rw [if_pos hemp]
    have h0 : get_opcodes a b = [] := by
      revert hemp
      cases get_opcodes a b <;> simp
    rw [h0, groupLoop_flat_nonEqual, nonEqualOps_fixupLast, nonEqualOps_fixupFirst]
    rfl
  · rw [if_neg hemp]
    rw [groupLoop_flat_nonEqual, nonEqualOps_fixupLast, nonEqualOps_fixupFirst]
    rfl

theorem sum_map_nonEqual (f : Opcode → Nat) (h0 : ∀ op, op.tag = Tag.equal → f op = 0) :
    ∀ l : List Opcode, ((nonEqualOps l).map f).sum = (l.map f).sum := by
  intro l
  induction l with
  | nil => rfl
  | cons c t ih =>
    by_cases he : c.tag = Tag.equal
    · have hstep : nonEqualOps (c :: t) = nonEqualOps t := by
        unfold nonEqualOps
        rw [List.filter_cons_of_neg (by simp [he])]
      rw [hstep, ih]
      simp [h0 c he]
    · have hstep : nonEqualOps (c :: t) = c :: nonEqualOps t := by
        unfold nonEqualOps
        rw [List.filter_cons_of_pos (by simp [he])]
      rw [hstep]
      simp [ih]

/-- The added-count of the body lines of one opcode: the counted new-slice
lines for insert/replace, nothing otherwise. -/
theorem countP_render_add (a b : List String) (op : Opcode) :
    List.countP sumAddLine (renderOpcodeLines a b op) =
      (if op.tag = Tag.insert ∨ op.tag = Tag.replace then
        List.countP (fun l => !pyStartsWith l "++ ") (slice b op.j1 op.j2)
      else 0) := by
  unfold renderOpcodeLines
  cases htag : op.tag with
  | equal =>
    rw [if_pos rfl, if_neg (by simp)]
    rw [List.countP_map]
    rw [show (sumAddLine ∘ fun l => " " ++ l) = fun _ => false from
      funext fun l => sumAddLine_space l]
    simp
  | insert =>
    rw [if_neg (by simp), if_neg (by simp), if_pos (by simp), if_pos (by simp)]
    rw [List.nil_append, List.countP_map]
    refine List.countP_congr ?_
    intro x hx
    show sumAddLine ("+" ++ x) = true ↔ (!pyStartsWith x "++ ") = true
    rw [sumAddLine_plus]
  | delete =>
    rw [if_neg (by simp), if_pos (by simp), if_neg (by simp), if_neg (by simp)]
    rw [List.append_nil, List.countP_map]
    rw [show (sumAddLine ∘ fun l => "-" ++ l) = fun _ => false from
      funext fun l => sumAddLine_minus l]
    simp
  | replace =>
    rw [if_neg (by simp), if_pos (by simp), if_pos (by simp), if_pos (by simp)]
    rw [List.countP_append, List.countP_map, List.countP_map]
    rw [show (sumAddLine ∘ fun l => "-" ++ l) = fun _ => false from
      funext fun l => sumAddLine_minus l]
    have hplus : List.countP (sumAddLine ∘ fun l => "+" ++ l) (slice b op.j1 op.j2) =
        List.countP (fun l => !pyStartsWith l "++ ") (slice b op.j1 op.j2) := by
      refine List.countP_congr ?_
      intro x hx
      show sumAddLine ("+" ++ x) = true ↔ (!pyStartsWith x "++ ") = true
      rw [sumAddLine_plus]
    rw [hplus]
    simp

/-- The removed-count of the body lines of one opcode: the counted
old-slice lines for delete/replace, nothing otherwise. -/
theorem countP_render_rem (a b : List String) (op : Opcode) :
    List.countP sumRemLine (renderOpcodeLines a b op) =
      (if op.tag = Tag.delete ∨ op.tag = Tag.replace then
        List.countP (fun l => !pyStartsWith l "-- ") (slice a op.i1 op.i2)
      else 0) := by
  unfold renderOpcodeLines
  cases htag : op.tag with
  | equal =>
    rw [if_pos rfl, if_neg (by simp)]
    rw [List.countP_map]
    rw [show (sumRemLine ∘ fun l => " " ++ l) = fun _ => false from
      funext fun l => sumRemLine_space l]
    simp
  | insert =>
    rw [if_neg (by simp), if_neg (by simp), if_pos (by simp), if_neg (by simp)]
    rw [List.nil_append, List.countP_map]
    rw [show (sumRemLine ∘ fun l => "+" ++ l) = fun _ => false from
      funext fun l => sumRemLine_plus l]
    simp
  | delete =>
    rw [if_neg (by simp), if_pos (by simp), if_neg (by simp), if_pos (by simp)]
    rw [List.append_nil, List.countP_map]
    refine List.countP_congr ?_
    intro x hx
    show sumRemLine ("-" ++ x) = true ↔ (!pyStartsWith x "-- ") = true
    rw [sumRemLine_minus]
  | replace =>
    rw [if_neg (by simp), if_pos (by simp), if_pos (by simp), if_pos (by simp)]
    rw [List.countP_append, List.countP_map, List.countP_map]
    rw [show (sumRemLine ∘ fun l => "+" ++ l) = fun _ => false from
      funext fun l => sumRemLine_plus l]
    have hminus : List.countP (sumRemLine ∘ fun l => "-" ++ l) (slice a op.i1 op.i2) =
        List.countP (fun l => !pyStartsWith l "-- ") (slice a op.i1 op.i2) := by
      refine List.countP_congr ?_
      intro x hx
      show sumRemLine ("-" ++ x) = true ↔ (!pyStartsWith x "-- ") = true
      rw [sumRemLine_minus]
    rw [hminus]
    simp

theorem sumAddLine_hunkHeader (g : List Opcode) :
    sumAddLine (hunkHeader g) = false := by
  unfold hunkHeader
  cases hh : g.head? <;> cases hl : g.getLast?
  · rfl
  · rfl
  · rfl
  · simp only [strAppend_assoc]
    exact sumAddLine_at _

theorem sumRemLine_hunkHeader (g : List Opcode) :
    sumRemLine (hunkHeader g) = false := by
  unfold hunkHeader
  cases hh : g.head? <;> cases hl : g.getLast?
  · rfl
  · rfl
  · rfl
  · simp only [strAppend_assoc]
    exact sumRemLine_at _

theorem countP_renderGroup_add (a b : List String) (g : List Opcode) :
    List.countP sumAddLine (renderGroup a b g) =
      ((g.map (fun op => List.countP sumAddLine (renderOpcodeLines a b op))).sum) := by
  unfold renderGroup
  rw [List.countP_cons, countP_flatMap, sumAddLine_hunkHeader]
  simp

theorem countP_renderGroup_rem (a b : List String) (g : List Opcode) :
    List.countP sumRemLine (renderGroup a b g) =
      ((g.map (fun op => List.countP sumRemLine (renderOpcodeLines a b op))).sum) := by
  unfold renderGroup
  rw [List.countP_cons, countP_flatMap, sumRemLine_hunkHeader]
  simp

theorem countP_body_add (old new : String) :
    List.countP sumAddLine (make_unified_diff old new) =
      List.countP sumAddLine
        ((get_grouped_opcodes 3 (splitlines old) (splitlines new)).flatMap
          (renderGroup (splitlines old) (splitlines new))) := by
  unfold make_unified_diff
  dsimp only
  by_cases hg : (get_grouped_opcodes 3 (splitlines old) (splitlines new)).isEmpty
  · rw [if_pos hg, List.isEmpty_iff.mp hg]
    rfl
  · rw [if_neg hg]
    rw [List.countP_cons, List.countP_cons]
    have h1 : sumAddLine "--- before" = false := by decide
    have h2 : sumAddLine "+++ after" = false := by decide
    rw [h1, h2]
    simp

theorem countP_body_rem (old new : String) :
    List.countP sumRemLine (make_unified_diff old new) =
      List.countP sumRemLine
        ((get_grouped_opcodes 3 (splitlines old) (splitlines new)).flatMap
          (renderGroup (splitlines old) (splitlines new))) := by
  unfold make_unified_diff
  dsimp only
  by_cases hg : (get_grouped_opcodes 3 (splitlines old) (splitlines new)).isEmpty
  · rw [if_pos hg, List.isEmpty_iff.mp hg]
    rfl
  · rw [if_neg hg]
    rw [List.countP_cons, List.countP_cons]
    have h1 : sumRemLine "--- before" = false := by decide
    have h2 : sumRemLine "+++ after" = false := by decide
    rw [h1, h2]
    simp

/-- C3 (amended): the diff statistics count, for added, the new-sequence
lines covered by insert and replace opcodes whose content does not begin
with `"++ "`, and for removed, the old-sequence lines covered by delete and
replace opcodes whose content does not begin with `"-- "` — covered lines
beginning with those prefixes render as `"+++ …"`/`"--- …"` and are
wrongly skipped as headers by `diff_summary`. -/
theorem diff_summary_counts (old new : String) :
    diff_summary (make_unified_diff old new) =
      (countedAdded (splitlines new) (get_opcodes (splitlines old) (splitlines new)),
       countedRemoved (splitlines old) (get_opcodes (splitlines old) (splitlines new))) := by
  rw [diff_summary_eq_countP]
  have hadd : List.countP sumAddLine (make_unified_diff old new) =
      countedAdded (splitlines new) (get_opcodes (splitlines old) (splitlines new)) := by
    rw [countP_body_add, countP_flatMap]
    rw [List.map_congr_left
      (fun g _ => countP_renderGroup_add (splitlines old) (splitlines new) g)]
    rw [← sum_map_flatten]
    rw [List.map_congr_left
      (fun op _ => countP_render_add (splitlines old) (splitlines new) op)]
    rw [← sum_map_nonEqual _ (fun op he => by simp [he])]
    rw [grouped_nonEqual]
    rw [sum_map_nonEqual _ (fun op he => by simp [he])]
    rfl
  have hrem : List.countP sumRemLine (make_unified_diff old new) =
      countedRemoved (splitlines old) (get_opcodes (splitlines old) (splitlines new)) := by
    rw [countP_body_rem, countP_flatMap]
    rw [List.map_congr_left
      (fun g _ => countP_renderGroup_rem (splitlines old) (splitlines new) g)]
    rw [← sum_map_flatten]
    rw [List.map_congr_left
      (fun op _ => countP_render_rem (splitlines old) (splitlines new) op)]
    rw [← sum_map_nonEqual _ (fun op he => by simp [he])]
    rw [grouped_nonEqual]
    rw [sum_map_nonEqual _ (fun op he => by simp [he])]
    rfl
  rw [hadd, hrem]

/-- C3 (counterexample): inserting the single line `"++ x"` is one covered
new-sequence line, yet `diff_summary` reports zero additions — its rendered
form `"+++ x"` is skipped as a file header. -/
theorem diff_summary_miscount :
    get_opcodes (splitlines "") (splitlines "++ x") =
      [⟨Tag.insert, 0, 0, 0, 1⟩] ∧
    specAdded (get_opcodes (splitlines "") (splitlines "++ x")) = 1 ∧
    diff_summary (make_unified_diff "" "++ x") = (0, 0) := by
  refine ⟨by decide, by decide, by decide⟩

/-! ## The shape of the rendered diff -/

theorem groupLoop_groups_ne_nil (n : Nat) :
    ∀ (codes group : List Opcode), ∀ g ∈ groupLoop n codes group, g ≠ [] := by
  intro codes
  induction codes with
  | nil =>
    intro group g hg
    revert hg
    match group with
    | [] =>
      intro hg
      simp [groupLoop] at hg
    | [x] =>
      rw [groupLoop]
      by_cases he : x.tag = Tag.equal
      · rw [if_pos he]
        intro hg
        simp at hg
      · rw [if_neg he]
        intro hg
        rw [List.mem_singleton] at hg
        rw [hg]
        simp
    | x :: y :: t =>
      rw [groupLoop]
      · intro hg
        rw [List.mem_singleton] at hg
        rw [hg]
        simp
      · intro h
        simp at h
      · intro z h
        simp at h
  | cons c rest ih =>
    intro group g hg
    rw [groupLoop] at hg
    by_cases hc : c.tag = Tag.equal ∧ 2 * n < c.i2 - c.i1
    · rw [if_pos hc] at hg
      rcases List.mem_cons.mp hg with h | h
      · rw [h]
        simp
      · exact ih _ g h
    · rw [if_neg hc] at hg
      exact ih _ g hg

theorem mem_slice {α : Type} {x : α} {l : List α} {i1 i2 : Nat}
    (h : x ∈ slice l i1 i2) : x ∈ l := by
  unfold slice at h
  exact List.mem_of_mem_take (List.mem_of_mem_drop h)

theorem sw_at_full (x : String) : pyStartsWith ("@@ -" ++ x) "@@ -" = true := by
  obtain ⟨d⟩ := x
  cases d <;> rfl

theorem hunkHeader_startsWith :
    ∀ (g : List Opcode), g ≠ [] → pyStartsWith (hunkHeader g) "@@ -" = true := by
  intro g hne
  cases g with
  | nil => exact absurd rfl hne
  | cons c t =>
    unfold hunkHeader
    cases hl : (c :: t).getLast? with
    | none => simp at hl
    | some last =>
      simp only [strAppend_assoc]
      exact sw_at_full _

/-- C4 (amended): a nonempty rendered diff starts with the two file
headers, and every further line is a hunk header `"@@ -…"`, a
space-prefixed context line carrying a line of the old sequence (equal
opcodes DO contribute context lines — up to three around each change), a
`-` line carrying a line of the old sequence, or a `+` line carrying a line
of the new sequence. -/
theorem make_unified_diff_structure (old new : String) :
    make_unified_diff old new = [] ∨
    ((make_unified_diff old new).take 2 = ["--- before", "+++ after"] ∧
     ∀ line ∈ (make_unified_diff old new).drop 2,
       pyStartsWith line "@@ -" = true ∨
       (∃ l ∈ splitlines old, line = " " ++ l) ∨
       (∃ l ∈ splitlines old, line = "-" ++ l) ∨
       (∃ l ∈ splitlines new, line = "+" ++ l)) := by
  unfold make_unified_diff
  dsimp only
  by_cases hg : (get_grouped_opcodes 3 (splitlines old) (splitlines new)).isEmpty
  · left
    rw [if_pos hg]
  · right
    rw [if_neg hg]
    refine ⟨rfl, ?_⟩
    intro line hline
    simp only [List.drop_succ_cons, List.drop_zero] at hline
    rw [List.mem_flatMap] at hline
    obtain ⟨g, hgmem, hlg⟩ := hline
    unfold renderGroup at hlg
    rcases List.mem_cons.mp hlg with h | h
    · left
      have hne : g ≠ [] := by
        unfold get_grouped_opcodes at hgmem
        dsimp only at hgmem
        exact groupLoop_groups_ne_nil 3 _ _ g hgmem
      rw [h]
      exact hunkHeader_startsWith g hne
    · rw [List.mem_flatMap] at h
      obtain ⟨op, hop, hlop⟩ := h
      unfold renderOpcodeLines at hlop
      by_cases he : op.tag = Tag.equal
      · rw [if_pos he] at hlop
        rw [List.mem_map] at hlop
        obtain ⟨l, hl, hleq⟩ := hlop
        right
        left
        exact ⟨l, mem_slice hl, hleq.symm⟩
      · rw [if_neg he] at hlop
        rw [List.mem_append] at hlop
        rcases hlop with h2 | h2
        · by_cases hrd : op.tag = Tag.replace ∨ op.tag = Tag.delete
          · rw [if_pos hrd] at h2
            rw [List.mem_map] at h2
            obtain ⟨l, hl, hleq⟩ := h2
            right
            right
            left
            exact ⟨l, mem_slice hl, hleq.symm⟩
          · rw [if_neg hrd] at h2
            simp at h2
        · by_cases hri : op.tag = Tag.replace ∨ op.tag = Tag.insert
          · rw [if_pos hri] at h2
            rw [List.mem_map] at h2
            obtain ⟨l, hl, hleq⟩ := h2
            right
            right
            right
            exact ⟨l, mem_slice hl, hleq.symm⟩
          · rw [if_neg hri] at h2
            simp at h2

/-- C4 (counterexample): a one-line replacement inside a three-line text
renders with the surrounding equal lines as space-prefixed context lines
(`" A"`, `" C"`), refuting the claim that equal opcodes contribute no
lines to hunk bodies. -/
theorem make_unified_diff_context_lines :
    make_unified_diff "A\nB\nC" "A\nB2\nC" =
      ["--- before", "+++ after", "@@ -1,3 +1,3 @@", " A", "-B", "+B2", " C"] ∧
    " A" ∈ make_unified_diff "A\nB\nC" "A\nB2\nC" ∧
    (⟨Tag.equal, 0, 1, 0, 1⟩ : Opcode) ∈
      get_opcodes (splitlines "A\nB\nC") (splitlines "A\nB2\nC") := by
  refine ⟨by decide, by decide, by decide⟩

/-! ## The line splitter against the spec's `\n`-only splitter -/

set_option maxHeartbeats 1000000 in
theorem splitlinesAux_cons_noCR (c : Char) (rest acc : List Char)
    (hcr : c ≠ '\r') :
    splitlinesAux (c :: rest) acc =
      if lineBreakNoCR c then ⟨acc.reverse⟩ :: splitlinesAux rest []
      else splitlinesAux rest (c :: acc) := by
  rw [splitlinesAux.eq_def]
  split
  all_goals
    first
      | (rename_i heq; exact absurd heq (List.cons_ne_nil _ _))
      | (rename_i heq; injection heq with h1 h2; exact absurd h1 hcr)
      | (rename_i heq; injection heq with h1 h2; rw [h1, h2])

theorem splitNl_agree (lines : List Char) :
    ∀ (d acc : List Char),
      (∀ c ∈ d, c ≠ '\r' ∧ (lineBreakNoCR c = true → c = '\n')) →
      splitlinesAux d acc = splitNlOnly d acc := by
  intro d
  induction d with
  | nil => intro acc _; rfl
  | cons c rest ih =>
    intro acc h
    obtain ⟨hcr, hlb⟩ := h c (List.mem_cons_self ..)
    rw [splitlinesAux_cons_noCR c rest acc hcr, splitNlOnly]
    by_cases hn : c = '\n'
    · rw [if_pos (show lineBreakNoCR c = true by rw [hn]; rfl), if_pos hn]
      rw [ih [] (fun x hx => h x (List.mem_cons_of_mem _ hx))]
    · have hlb' : lineBreakNoCR c = false := by
        cases hb : lineBreakNoCR c
        · rfl
        · exact absurd (hlb hb) hn
      rw [if_neg (by rw [hlb']; simp), if_neg hn]
      exact ih (c :: acc) (fun x hx => h x (List.mem_cons_of_mem _ hx))

/-- C8 (amended): on texts containing no line-boundary character other than
`\n`, `str.splitlines()` agrees with the `\n`-only splitter described by the
spec, and empty input yields the empty sequence; on other texts the code's
splitter also breaks at `\r`, `\r\n`, `\v`, `\f`, FS, GS, RS, NEL, LS and
PS. -/
theorem splitlines_nl_only (s : String)
    (h : ∀ c ∈ s.data, c ≠ '\r' ∧ (lineBreakNoCR c = true → c = '\n')) :
    splitlines s = splitOnNewline s ∧ splitlines "" = [] :=
  ⟨splitNl_agree s.data s.data [] h, by decide⟩

/-- Witness for C8 (amended) at a two-line text. -/
theorem splitlines_nl_only_witness :
    splitlines "a\nb" = splitOnNewline "a\nb" ∧ splitlines "" = [] :=
  splitlines_nl_only "a\nb" (by decide)

/-- C8 (counterexample): `"a\rb"` is split at the carriage return by the
code's splitter but is a single line for the spec's `\n`-only splitter. -/
theorem splitlines_extra_boundary :
    splitlines "a\rb" = ["a", "b"] ∧ splitOnNewline "a\rb" = ["a\rb"] ∧
    splitlines "a\rb" ≠ splitOnNewline "a\rb" := by
  refine ⟨by decide, by decide, by decide⟩

theorem prevLoop_none (lines : List String) :
    ∀ (steps : Nat) (i : Int),
      (∀ j : Int, i - steps < j → j ≤ i → ¬ ctxGood lines j) →
      prevLoop lines steps i = "" := by
  intro steps
  induction steps with
  | zero => intro i _; rfl
  | succ n ih =>
    intro i h
    rw [prevLoop]
    rw [if_neg (show ¬ (pyStrip (lines.getD i.toNat "") ≠ "" ∧
        asciiLower (pyStrip (lines.getD i.toNat "")) ≠ "notion") from
      h i (by omega) (by omega))]
    exact ih (i - 1) (fun j h1 h2 => h j (by omega) (by omega))

theorem prevLoop_found (lines : List String) :
    ∀ (steps : Nat) (i m : Int),
      i - steps < m → m ≤ i → ctxGood lines m →
      (∀ j : Int, m < j → j ≤ i → ¬ ctxGood lines j) →
      prevLoop lines steps i = ctxLineAt lines m := by
  intro steps
  induction steps with
  | zero =>
    intro i m h1 h2 _ _
    exfalso
    omega
  | succ n ih =>
    intro i m h1 h2 hg hmax
    rw [prevLoop]
    by_cases hi : m = i
    · subst hi
      rw [if_pos (show pyStrip (lines.getD m.toNat "") ≠ "" ∧
          asciiLower (pyStrip (lines.getD m.toNat "")) ≠ "notion" from hg)]
      rfl
    · rw [if_neg (show ¬ (pyStrip (lines.getD i.toNat "") ≠ "" ∧
          asciiLower (pyStrip (lines.getD i.toNat "")) ≠ "notion") from
        hmax i (by omega) (by omega))]
      exact ih (i - 1) m (by omega) (by omega) hg
        (fun j ha hb => hmax j (by omega) (by omega))

theorem prevLoop_result (lines : List String) :
    ∀ (steps : Nat) (i : Int),
      prevLoop lines steps i = "" ∨
      ∃ m : Int, i - steps < m ∧ m ≤ i ∧
        prevLoop lines steps i = pyStrip (lines.getD m.toNat "") := by
  intro steps
  induction steps with
  | zero =>
    intro i
    left
    rfl
  | succ n ih =>
    intro i
    rw [prevLoop]
    by_cases hc : pyStrip (lines.getD i.toNat "") ≠ "" ∧
        asciiLower (pyStrip (lines.getD i.toNat "")) ≠ "notion"
    · rw [if_pos hc]
      right
      exact ⟨i, by omega, le_refl _, rfl⟩
    · rw [if_neg hc]
      rcases ih (i - 1) with h | ⟨m, hm1, hm2, hm3⟩
      · left
        exact h
      · right
        exact ⟨m, by omega, by omega, hm3⟩

/-- C9: the context resolver starts at `min(from_index - 1, len - 1)`,
walks backward at most `lookback` indices, returns the stripped content of
the first (highest-index) line in that window that is non-empty and not the
boilerplate token after stripping, returns `""` when `from_index ≤ 0` or
when no such line exists in the window; and the builder prefers the
new-sequence context, falling back to the old side only when the new-side
lookup is empty. -/
theorem prev_nonempty_line_spec (lines : List String) (idx : Int) (lookback : Nat) :
    (idx ≤ 0 → prev_nonempty_line lines idx lookback = "") ∧
    ((∀ i : Int,
        max (-1) (min (idx - 1) ((lines.length : Int) - 1) - lookback) < i →
        i ≤ min (idx - 1) ((lines.length : Int) - 1) → ¬ ctxGood lines i) →
      prev_nonempty_line lines idx lookback = "") ∧
    (∀ i : Int,
        max (-1) (min (idx - 1) ((lines.length : Int) - 1) - lookback) < i →
        i ≤ min (idx - 1) ((lines.length : Int) - 1) → ctxGood lines i →
        (∀ j : Int, i < j → j ≤ min (idx - 1) ((lines.length : Int) - 1) →
          ¬ ctxGood lines j) →
      prev_nonempty_line lines idx lookback = ctxLineAt lines i) ∧
    (∀ (ol nl : List String) (op : Opcode),
      (prev_nonempty_line nl op.j1 ≠ "" →
        opContext ol nl op = prev_nonempty_line nl op.j1) ∧
      (prev_nonempty_line nl op.j1 = "" →
        opContext ol nl op = prev_nonempty_line ol op.i1)) := by
  refine ⟨?_, ?_, ?_, ?_⟩
  · intro h0
    unfold prev_nonempty_line
    dsimp only
    have hz : (min (idx - 1) ((lines.length : Int) - 1) -
        max (-1) (min (idx - 1) ((lines.length : Int) - 1) - lookback)).toNat = 0 := by
      omega
    rw [hz]
    rfl
  · intro h
    unfold prev_nonempty_line
    dsimp only
    exact prevLoop_none lines _ _ (fun j h1 h2 => h j (by omega) (by omega))
  · intro i hi1 hi2 hg hmax
    unfold prev_nonempty_line
    dsimp only
    exact prevLoop_found lines _ _ i (by omega) (by omega) hg
      (fun j ha hb => hmax j (by omega) (by omega))
  · intro ol nl op
    constructor
    · intro h
      unfold opContext
      rw [if_pos h]
    · intro h
      unfold opContext
      rw [if_neg (fun hc => hc h)]

/-- C10: the context walk only ever inspects indices inside
`[0, len(lines))`, and its result is either the empty string or the
stripped content of a line of the window it walked. -/
theorem prev_nonempty_line_safe (lines : List String) (idx : Int) (lookback : Nat) :
    (∀ step : Nat,
        (step : Int) < min (idx - 1) ((lines.length : Int) - 1) -
          max (-1) (min (idx - 1) ((lines.length : Int) - 1) - lookback) →
        0 ≤ min (idx - 1) ((lines.length : Int) - 1) - step ∧
          min (idx - 1) ((lines.length : Int) - 1) - step < (lines.length : Int)) ∧
    (prev_nonempty_line lines idx lookback = "" ∨
      ∃ i : Nat, i < lines.length ∧
        max (-1) (min (idx - 1) ((lines.length : Int) - 1) - lookback) < (i : Int) ∧
        (i : Int) ≤ min (idx - 1) ((lines.length : Int) - 1) ∧
        prev_nonempty_line lines idx lookback = pyStrip (lines.getD i "")) := by
  constructor
  · intro step h
    omega
  · unfold prev_nonempty_line
    dsimp only
    rcases prevLoop_result lines
        (min (idx - 1) ((lines.length : Int) - 1) -
          max (-1) (min (idx - 1) ((lines.length : Int) - 1) - lookback)).toNat
        (min (idx - 1) ((lines.length : Int) - 1)) with h | ⟨m, hm1, hm2, hm3⟩
    · left
      exact h
    · right
      refine ⟨m.toNat, by omega, by omega, by omega, ?_⟩
      exact hm3

set_option maxRecDepth 10000 in
set_option maxHeartbeats 2000000 in
/-- C5 (counterexample): with 200 new lines the default `autojunk=True`
heuristic marks the four-fold repeated line `"x"` popular and refuses to
match on it, so the matcher's opcodes diverge from the reference greedy
alignment, which happily aligns the `"x"`. -/
theorem get_opcodes_autojunk_divergence :
    200 ≤ autojunkB.length ∧
    get_opcodes autojunkA autojunkB ≠ refOpcodes autojunkA autojunkB := by
  refine ⟨by decide, by decide⟩

/-- Witness for C5 (amended) at a concrete short pair. -/
theorem get_opcodes_eq_ref_witness :
    get_opcodes ["a", "b"] ["a", "c"] = refOpcodes ["a", "b"] ["a", "c"] :=
  get_opcodes_eq_ref_of_short ["a", "b"] ["a", "c"] (by decide)

/-- Witness for C7 at a concrete state: stored hash matches, texts equal. -/
theorem runMain_self_witness :
    (runMain (fun _ => "h") "h\n" "A\nB" "A\nB" 25 6).changed = false ∧
      (runMain (fun _ => "h") "h\n" "A\nB" "A\nB" 25 6).added = 0 ∧
      (runMain (fun _ => "h") "h\n" "A\nB" "A\nB" 25 6).removed = 0 ∧
      (runMain (fun _ => "h") "h\n" "A\nB" "A\nB" 25 6).changeReport =
        "No visible text changes detected." ∧
      (runMain (fun _ => "h") "h\n" "A\nB" "A\nB" 25 6).changeBrief = "No changes" :=
  runMain_self (fun _ => "h") "h\n" "A\nB" 25 6 (by decide)

end CheckNotion

